import Mathlib

/-!
Verification of the hypergraph Ricci-flow pipeline
(`UndirectedHypergraphFinal.py`): a shallow embedding of the
`UndirectedHypergraph` store and the curvature / weight-update / surgery
functions, with theorems settling the specification claims.

Python numbers are modelled by `ℚ` (exact arithmetic; the source uses
floats, but every claim checked here concerns values that the float
program computes exactly at the inputs considered).  Python `None` is
modelled by `Option`, and raised exceptions by `Except PyErr`.
-/

namespace HyperRF

/-- Outcomes of the Python exceptions that the source can raise.
`valueError` carries the message from the `raise ValueError(...)` site;
`typeError` models an unsupported-operand / bad-call `TypeError`;
`nameError` models reading an unbound local variable. -/
inductive PyErr where
  | valueError (msg : String)
  | typeError
  | nameError
  deriving DecidableEq, Repr

/-- Node identifiers (opaque in the source; modelled as `ℕ`). -/
abbrev Node := ℕ

/-- Hyperedge identifiers (paper ids in the source; modelled as `ℕ`). -/
abbrev EdgeId := ℕ

/-- Lookup in an association list (Python `dict` access).  Keys are unique
in every store the program builds, so first match equals dict lookup. -/
def lookupKey {α : Type} : List (EdgeId × α) → EdgeId → Option α
  | [], _ => none
  | p :: rest, k => if p.1 = k then some p.2 else lookupKey rest k

/-- Key-membership test in an association list (Python `k in dict`). -/
def hasKey {α : Type} (l : List (EdgeId × α)) (k : EdgeId) : Bool :=
  l.any (fun p => p.1 == k)

/-- Remove a key binding (Python `dict.pop`; keys are unique). -/
def eraseKey {α : Type} (l : List (EdgeId × α)) (k : EdgeId) : List (EdgeId × α) :=
  l.filter (fun p => p.1 ≠ k)

/-- Append one value to the history list stored under a key
(Python `self.d[k].append(v)`). -/
def appendAt {α : Type} (l : List (EdgeId × List α)) (k : EdgeId) (v : α) :
    List (EdgeId × List α) :=
  l.map (fun p => if p.1 = k then (p.1, p.2 ++ [v]) else p)

/-- The `UndirectedHypergraph` store: node set, hyperedge-id → member list,
hyperedge-id → weight history, hyperedge-id → curvature history.
Python's `set`/`dict` are modelled as a duplicate-free list (insertion
order) and association lists with unique keys. -/
structure Hypergraph where
  nodes : List Node
  hyperedges : List (EdgeId × List Node)
  weights : List (EdgeId × List ℚ)
  ricci_curvature : List (EdgeId × List (Option ℚ))
  deriving DecidableEq, Repr

/-- `add_node`: insert a node (Python `set.add`, idempotent). -/
def add_node (g : Hypergraph) (n : Node) : Hypergraph :=
  if n ∈ g.nodes then g else { g with nodes := g.nodes ++ [n] }

/-- `add_hyperedge`: no-op if the id already exists (the source logs and
returns); otherwise adds every missing member node, records the member
list, and seeds the weight history with `[1]`. -/
def add_hyperedge (g : Hypergraph) (hyperedge_id : EdgeId) (ns : List Node) :
    Hypergraph :=
  if hasKey g.hyperedges hyperedge_id then g
  else
    let g' := ns.foldl add_node g
    { g' with
      hyperedges := g'.hyperedges ++ [(hyperedge_id, ns)]
      weights := g'.weights ++ [(hyperedge_id, [1])] }

/-- `add_ricci_curvature`: append a curvature value (possibly `None`) to the
id's curvature history, initializing the history if the key is new. -/
def add_ricci_curvature (g : Hypergraph) (hyperedge_id : EdgeId) (orc : Option ℚ) :
    Hypergraph :=
  if hasKey g.ricci_curvature hyperedge_id then
    { g with ricci_curvature := appendAt g.ricci_curvature hyperedge_id orc }
  else
    { g with ricci_curvature := g.ricci_curvature ++ [(hyperedge_id, [orc])] }

/-- `add_weights`: append a weight to the id's weight history unless the
argument is `None` (the source's `if weights is not None` guard). -/
def add_weights (g : Hypergraph) (hyperedge_id : EdgeId) (w : Option ℚ) :
    Hypergraph :=
  match w with
  | none => g
  | some v => { g with weights := appendAt g.weights hyperedge_id v }

/-- `remove_hyperedge`: pop the hyperedge and its weight history, then drop
from the node set the removed members that occur in no remaining
hyperedge (the source's iterated `difference_update`).  Unknown ids are a
logged no-op. -/
def remove_hyperedge (g : Hypergraph) (hyperedge_id : EdgeId) : Hypergraph :=
  match lookupKey g.hyperedges hyperedge_id with
  | none => g
  | some nodes_to_check =>
    let hyperedges' := eraseKey g.hyperedges hyperedge_id
    let weights' := eraseKey g.weights hyperedge_id
    let nodes_to_remove :=
      hyperedges'.foldl (fun acc p => acc.filter (fun x => decide (x ∉ p.2)))
        nodes_to_check.dedup
    { g with
      hyperedges := hyperedges'
      weights := weights'
      nodes := g.nodes.filter (fun x => decide (x ∉ nodes_to_remove)) }

/-- The node-set closure invariant of the store (spec §3): every node
referenced by any hyperedge is present in the node set. -/
def Closed (g : Hypergraph) : Prop :=
  ∀ p ∈ g.hyperedges, ∀ x ∈ p.2, x ∈ g.nodes

section StoreLemmas

theorem mem_foldl_add_node (ns : List Node) (g : Hypergraph) (x : Node) :
    x ∈ (ns.foldl add_node g).nodes ↔ x ∈ g.nodes ∨ x ∈ ns := by
  induction ns generalizing g with
  | nil => simp
  | cons a t ih =>
    simp only [List.foldl_cons, ih, List.mem_cons]
    unfold add_node
    by_cases h : a ∈ g.nodes
    · simp only [if_pos h]
      constructor
      · rintro (hx | hx)
        · exact Or.inl hx
        · exact Or.inr (Or.inr hx)
      · rintro (hx | hx | hx)
        · exact Or.inl hx
        · exact Or.inl (hx ▸ h)
        · exact Or.inr hx
    · simp only [if_neg h, List.mem_append, List.mem_singleton]
      tauto

theorem foldl_add_node_hyperedges (ns : List Node) (g : Hypergraph) :
    (ns.foldl add_node g).hyperedges = g.hyperedges := by
  induction ns generalizing g with
  | nil => rfl
  | cons a t ih =>
    simp only [List.foldl_cons, ih]
    unfold add_node
    by_cases h : a ∈ g.nodes
    · simp [h]
    · simp [h]

theorem mem_foldl_filter_not_mem (l : List (EdgeId × List Node))
    (init : List Node) (x : Node) :
    x ∈ l.foldl (fun acc p => acc.filter (fun y => decide (y ∉ p.2))) init ↔
      x ∈ init ∧ ∀ p ∈ l, x ∉ p.2 := by
  induction l generalizing init with
  | nil => simp
  | cons a t ih =>
    simp only [List.foldl_cons, ih, List.mem_filter, decide_eq_true_eq,
      List.mem_cons]
    constructor
    · rintro ⟨⟨hx, hna⟩, hall⟩
      refine ⟨hx, ?_⟩
      rintro p (rfl | hp)
      · exact hna
      · exact hall p hp
    · rintro ⟨hx, hall⟩
      exact ⟨⟨hx, hall a (Or.inl rfl)⟩, fun p hp => hall p (Or.inr hp)⟩

theorem remove_hyperedge_nodes_iff (g : Hypergraph) (id : EdgeId)
    (ms : List Node) (h : lookupKey g.hyperedges id = some ms) (x : Node) :
    x ∈ (remove_hyperedge g id).nodes ↔
      x ∈ g.nodes ∧
        ¬(x ∈ ms ∧ ∀ p ∈ eraseKey g.hyperedges id, x ∉ p.2) := by
  unfold remove_hyperedge
  rw [h]
  simp only [List.mem_filter, decide_eq_true_eq, mem_foldl_filter_not_mem,
    List.mem_dedup]

theorem lookupKey_eraseKey {α : Type} (l : List (EdgeId × α)) (k : EdgeId) :
    lookupKey (eraseKey l k) k = none := by
  induction l with
  | nil => rfl
  | cons a t ih =>
    by_cases h : a.1 = k
    · simpa [eraseKey, List.filter, h] using ih
    · simpa [eraseKey, List.filter, h, lookupKey] using ih

end StoreLemmas

/-- C8: `add_hyperedge` preserves the node-closure invariant and inserts
all member nodes of a fresh hyperedge; `remove_hyperedge` on a present id
removes from the node set exactly the removed hyperedge's members that
occur in no remaining hyperedge (so it never removes a node still
referenced by another hyperedge), and it preserves the closure invariant. -/
theorem store_operations_preserve_node_closure (g : Hypergraph) (id : EdgeId)
    (ns : List Node) :
    (Closed g → Closed (add_hyperedge g id ns)) ∧
    (hasKey g.hyperedges id = false →
      ∀ x ∈ ns, x ∈ (add_hyperedge g id ns).nodes) ∧
    (∀ ms, lookupKey g.hyperedges id = some ms →
      ∀ x, x ∈ (remove_hyperedge g id).nodes ↔
        x ∈ g.nodes ∧
          ¬(x ∈ ms ∧ ∀ p ∈ eraseKey g.hyperedges id, x ∉ p.2)) ∧
    (Closed g → Closed (remove_hyperedge g id)) := by
  refine ⟨?_, ?_, ?_, ?_⟩
  · intro hc
    unfold add_hyperedge
    by_cases h : hasKey g.hyperedges id
    · simpa [h] using hc
    · simp only [h, Bool.false_eq_true, if_false]
      intro p hp x hx
      simp only [List.mem_append, List.mem_singleton] at hp
      rw [foldl_add_node_hyperedges] at hp
      rcases hp with hp | hp
      · exact (mem_foldl_add_node ns g x).mpr (Or.inl (hc p hp x hx))
      · subst hp
        exact (mem_foldl_add_node ns g x).mpr (Or.inr hx)
  · intro h x hx
    unfold add_hyperedge
    simp only [h, Bool.false_eq_true, if_false]
    exact (mem_foldl_add_node ns g x).mpr (Or.inr hx)
  · intro ms hms x
    exact remove_hyperedge_nodes_iff g id ms hms x
  · intro hc
    cases hlk : lookupKey g.hyperedges id with
    | none =>
      unfold Closed remove_hyperedge
      rw [hlk]
      exact hc
    | some ms =>
      intro p hp x hx
      have hmem : p ∈ eraseKey g.hyperedges id := by
        have : (remove_hyperedge g id).hyperedges = eraseKey g.hyperedges id := by
          unfold remove_hyperedge
          rw [hlk]
        rwa [this] at hp
      have hpg : p ∈ g.hyperedges := List.mem_of_mem_filter hmem
      rw [remove_hyperedge_nodes_iff g id ms hlk x]
      refine ⟨hc p hpg x hx, ?_⟩
      rintro ⟨-, hall⟩
      exact hall p hmem hx

/-- Example store used by the concrete witnesses: three hyperedges
`10 ↦ [1,2,3]`, `11 ↦ [2,3,4]`, `12 ↦ [4,5]` (the spec's §8 scenario). -/
def gEx : Hypergraph :=
  { nodes := [1, 2, 3, 4, 5]
    hyperedges := [(10, [1, 2, 3]), (11, [2, 3, 4]), (12, [4, 5])]
    weights := [(10, [1]), (11, [1]), (12, [1])]
    ricci_curvature := [(12, [some 1])] }

/-- Witness for C8 at the concrete store `gEx`. -/
theorem store_operations_preserve_node_closure_witness :
    (Closed gEx → Closed (add_hyperedge gEx 13 [5, 6])) ∧
    (hasKey gEx.hyperedges 13 = false →
      ∀ x ∈ [5, 6], x ∈ (add_hyperedge gEx 13 [5, 6]).nodes) ∧
    (∀ ms, lookupKey gEx.hyperedges 13 = some ms →
      ∀ x, x ∈ (remove_hyperedge gEx 13).nodes ↔
        x ∈ gEx.nodes ∧
          ¬(x ∈ ms ∧ ∀ p ∈ eraseKey gEx.hyperedges 13, x ∉ p.2)) ∧
    (Closed gEx → Closed (remove_hyperedge gEx 13)) :=
  store_operations_preserve_node_closure gEx 13 [5, 6]

/-- C10: removing a present hyperedge deletes the hyperedge and its weight
history but leaves the ricci-curvature mapping entirely untouched; in
particular the removed id keeps all its recorded curvature values. -/
theorem remove_hyperedge_keeps_curvature_history (g : Hypergraph) (id : EdgeId)
    (ms : List Node) (hist : List (Option ℚ))
    (hm : lookupKey g.hyperedges id = some ms)
    (hr : lookupKey g.ricci_curvature id = some hist) :
    lookupKey (remove_hyperedge g id).hyperedges id = none ∧
    lookupKey (remove_hyperedge g id).weights id = none ∧
    (remove_hyperedge g id).ricci_curvature = g.ricci_curvature ∧
    lookupKey (remove_hyperedge g id).ricci_curvature id = some hist := by
  have hhe : (remove_hyperedge g id).hyperedges = eraseKey g.hyperedges id := by
    unfold remove_hyperedge; rw [hm]
  have hwe : (remove_hyperedge g id).weights = eraseKey g.weights id := by
    unfold remove_hyperedge; rw [hm]
  have hre : (remove_hyperedge g id).ricci_curvature = g.ricci_curvature := by
    unfold remove_hyperedge; rw [hm]
  exact ⟨by rw [hhe]; exact lookupKey_eraseKey _ _,
    by rw [hwe]; exact lookupKey_eraseKey _ _,
    hre, by rw [hre]; exact hr⟩

/-- Witness for C10: removing hyperedge `12` from `gEx` keeps its recorded
curvature history `[some 1]`. -/
theorem remove_hyperedge_keeps_curvature_history_witness :
    lookupKey (remove_hyperedge gEx 12).hyperedges 12 = none ∧
    lookupKey (remove_hyperedge gEx 12).weights 12 = none ∧
    (remove_hyperedge gEx 12).ricci_curvature = gEx.ricci_curvature ∧
    lookupKey (remove_hyperedge gEx 12).ricci_curvature 12 = some [some 1] :=
  remove_hyperedge_keeps_curvature_history gEx 12 [4, 5] [some 1] rfl rfl

/-- `neighbours`: every node sharing at least one hyperedge with `node`,
minus the node itself; empty if the node is absent.  The source collects a
Python set; the list here is duplicate-free and only its membership is used. -/
def neighbours (g : Hypergraph) (node : Node) : List Node :=
  if node ∈ g.nodes then
    (((g.hyperedges.filter (fun p => decide (node ∈ p.2))).map Prod.snd).flatten.dedup).filter
      (fun x => decide (x ≠ node))
  else []

/-- `find_hyperedges_containing_nodes`: ids of the hyperedges whose member
list has a non-empty intersection with the query set — i.e. hyperedges
containing ANY of the queried nodes (this is what
`nodes_set.intersection(hyperedge_nodes)` tests in the source). -/
def find_hyperedges_containing_nodes (g : Hypergraph) (qs : List Node) :
    List EdgeId :=
  (g.hyperedges.filter (fun p => p.2.any (fun x => qs.contains x))).map Prod.fst

/-- The random-walk denominator of `node_probability`:
`Σ (|f| − 1)` over hyperedges `f` containing the anchor node. -/
def rw_denominator (g : Hypergraph) (v : Node) : ℤ :=
  ((find_hyperedges_containing_nodes g [v]).map
    (fun id => ((lookupKey g.hyperedges id).getD []).length - 1 : EdgeId → ℤ)).sum

/-- The per-node random-walk mass right before the final renormalization of
`node_probability` (the probability dictionary's state after the neighbour
loop and the `alpha` self-assignment; the anchor never occurs among its
own neighbours, so each entry is written once). -/
def pre_normalization_mass (g : Hypergraph) (v n : Node) : ℚ :=
  if n = v then 1/10
  else if n ∈ neighbours g v then
    (1 - 1/10) * ((find_hyperedges_containing_nodes g [v, n]).length : ℚ) /
      ((rw_denominator g v : ℤ) : ℚ)
  else 0

/-- The distribution returned by `node_probability` for a present node:
degenerate at the anchor when the denominator is zero, otherwise the
pre-normalization masses divided by their total over all nodes. -/
def rw_distribution (g : Hypergraph) (v : Node) : Node → ℚ :=
  if rw_denominator g v = 0 then fun n => if n = v then 1 else 0
  else fun n =>
    pre_normalization_mass g v n / (g.nodes.map (pre_normalization_mass g v)).sum

/-- `node_probability`: raises `ValueError` for an absent node, otherwise
returns the (renormalized) random-walk distribution. -/
def node_probability (g : Hypergraph) (v : Node) : Except PyErr (Node → ℚ) :=
  if v ∈ g.nodes then .ok (rw_distribution g v)
  else .error (.valueError "Node does not exist in the hypergraph.")

/-- Stated from the spec (§4.3): the hyperedges containing BOTH of two
given nodes — what the claim says the `node_probability` numerator counts.
Compare with `find_hyperedges_containing_nodes`, which the code actually
uses and which counts hyperedges containing EITHER node. -/
def hyperedges_containing_both (g : Hypergraph) (a b : Node) : List EdgeId :=
  (g.hyperedges.filter (fun p => decide (a ∈ p.2) && decide (b ∈ p.2))).map
    Prod.fst

/-- Two-hyperedge store exhibiting the C1 divergence: edges `0 ↦ [0,1]`
and `1 ↦ [1,2]`; exactly one hyperedge contains both nodes 0 and 1, but
two hyperedges contain at least one of them. -/
def gC1 : Hypergraph :=
  { nodes := [0, 1, 2]
    hyperedges := [(0, [0, 1]), (1, [1, 2])]
    weights := [(0, [1]), (1, [1])]
    ricci_curvature := [] }

/-- C1 (evaluation at the failing input): anchored at node 0 the
denominator is 1 and exactly one hyperedge contains both 0 and its
neighbour 1, yet the code assigns pre-normalization mass
`(1 − 0.1)·2/1 = 9/5` to node 1 — `find_hyperedges_containing_nodes`
counts hyperedges meeting {0,1}, not hyperedges containing both — which
differs from the claimed `(1 − 0.1)·1/1 = 9/10`. -/
theorem node_probability_numerator_counts_any_node :
    rw_denominator gC1 0 = 1 ∧
    (hyperedges_containing_both gC1 0 1).length = 1 ∧
    1 ∈ neighbours gC1 0 ∧
    pre_normalization_mass gC1 0 1 = 9/5 ∧
    pre_normalization_mass gC1 0 1 ≠
      (1 - 1/10) * ((hyperedges_containing_both gC1 0 1).length : ℚ) /
        ((rw_denominator gC1 0 : ℤ) : ℚ) := by
  have hden : rw_denominator gC1 0 = 1 := by decide
  have hboth : (hyperedges_containing_both gC1 0 1).length = 1 := by decide
  have hmem : (1 : ℕ) ∈ neighbours gC1 0 := by decide
  have hlen : (find_hyperedges_containing_nodes gC1 [0, 1]).length = 2 := by
    decide
  have hpre : pre_normalization_mass gC1 0 1 = 9/5 := by
    unfold pre_normalization_mass
    rw [if_neg (by decide), if_pos hmem, hlen, hden]
    norm_num
  refine ⟨hden, hboth, hmem, hpre, ?_⟩
  rw [hpre, hboth, hden]
  norm_num

/-- Total mass of a distribution: the source sums the distribution's
values over every node of the hypergraph (the dictionaries returned by
`node_probability` have exactly the node set as keys; sorting the keys
does not change the sum). -/
def total_mass (g : Hypergraph) (mu : Node → ℚ) : ℚ :=
  (g.nodes.map mu).sum

/-- The message of the `ValueError` raised on unequal total masses. -/
def massMismatchMsg : String :=
  "The total mass of the distributions mu_A and mu_B are not equal. For"

/-- `earthmover_distance_gurobi_distance_matrix` up to the linear program:
returns `None` if either node is absent, raises the mass-mismatch
`ValueError` when the two total masses differ by more than `1e-6`, and
otherwise delegates to the LP solver (abstracted as the parameter `lp`,
which yields the optimal cost or `None` on solver failure). -/
def earthmover_distance_gurobi_distance_matrix
    (lp : List (List ℚ) → (Node → ℚ) → (Node → ℚ) → Option ℚ)
    (g : Hypergraph) (node_A node_B : Node) (distance_matrix : List (List ℚ)) :
    Except PyErr (Option ℚ) :=
  if node_A ∉ g.nodes ∨ node_B ∉ g.nodes then .ok none
  else
    match node_probability g node_A, node_probability g node_B with
    | .error e, _ => .error e
    | .ok _, .error e => .error e
    | .ok mu_A, .ok mu_B =>
      if |total_mass g mu_A - total_mass g mu_B| > 1/1000000 then
        .error (.valueError massMismatchMsg)
      else .ok (lp distance_matrix mu_A mu_B)

/-- C9: for nodes present in the hypergraph the transport call fails with
the mass-mismatch error exactly when the two distributions' total masses
differ by more than `1e-6`; in particular when both sum to 1 the
mass-mismatch branch is never taken. -/
theorem earthmover_mass_mismatch_iff
    (lp : List (List ℚ) → (Node → ℚ) → (Node → ℚ) → Option ℚ)
    (g : Hypergraph) (a b : Node) (dm : List (List ℚ))
    (ha : a ∈ g.nodes) (hb : b ∈ g.nodes) :
    (earthmover_distance_gurobi_distance_matrix lp g a b dm =
        .error (.valueError massMismatchMsg) ↔
      |total_mass g (rw_distribution g a) - total_mass g (rw_distribution g b)| >
        1/1000000) ∧
    (total_mass g (rw_distribution g a) = 1 →
      total_mass g (rw_distribution g b) = 1 →
      earthmover_distance_gurobi_distance_matrix lp g a b dm ≠
        .error (.valueError massMismatchMsg)) := by
  have hguard : ¬(a ∉ g.nodes ∨ b ∉ g.nodes) := by
    push_neg
    exact ⟨ha, hb⟩
  constructor
  · unfold earthmover_distance_gurobi_distance_matrix node_probability
    rw [if_neg hguard, if_pos ha, if_pos hb]
    by_cases h : |total_mass g (rw_distribution g a) -
        total_mass g (rw_distribution g b)| > 1/1000000
    · simp [h]
    · simp [h]
  · intro h1 h2
    unfold earthmover_distance_gurobi_distance_matrix node_probability
    rw [if_neg hguard, if_pos ha, if_pos hb]
    have habs : |total_mass g (rw_distribution g a) -
        total_mass g (rw_distribution g b)| = 0 := by
      rw [h1, h2, sub_self, abs_zero]
    simp only [habs]
    norm_num
    exact fun hcon => Except.noConfusion hcon

/-- Witness for C9 at the concrete store `gEx` with a trivial solver. -/
theorem earthmover_mass_mismatch_iff_witness :
    (earthmover_distance_gurobi_distance_matrix (fun _ _ _ => none) gEx 1 2 [] =
        .error (.valueError massMismatchMsg) ↔
      |total_mass gEx (rw_distribution gEx 1) -
          total_mass gEx (rw_distribution gEx 2)| > 1/1000000) ∧
    (total_mass gEx (rw_distribution gEx 1) = 1 →
      total_mass gEx (rw_distribution gEx 2) = 1 →
      earthmover_distance_gurobi_distance_matrix (fun _ _ _ => none) gEx 1 2 [] ≠
        .error (.valueError massMismatchMsg)) :=
  earthmover_mass_mismatch_iff (fun _ _ _ => none) gEx 1 2 [] (by decide) (by decide)

/-- All member pairs `(xs[p], xs[q])` with `p < q`, in the order Python's
`itertools.combinations(nodes, 2)` yields them. -/
def pairCombinations : List Node → List (Node × Node)
  | [] => []
  | x :: xs => (xs.map (fun y => (x, y))) ++ pairCombinations xs

/-- The latest weight of a hyperedge (`self.weights[hyperedge_id][-1]`).
Every hyperedge added through `add_hyperedge` has a nonempty weight
history, so the defaults are never consulted on the program's stores. -/
def lastWeight (g : Hypergraph) (hyperedge_id : EdgeId) : ℚ :=
  ((lookupKey g.weights hyperedge_id).getD []).getLastD 0

/-- `earthmover_distance_hyperedge_combinations`, parameterized by the
pairwise transport call `emd` (the application of
`earthmover_distance_gurobi_distance_matrix` with the solver, store and
distance matrix fixed): `None` for an unknown id, `1` for fewer than two
members, otherwise the weight-normalized average over the successful
pairs, or `None` when no pair succeeded.  A raised transport error
propagates. -/
def earthmover_distance_hyperedge_combinations
    (emd : Node → Node → Except PyErr (Option ℚ))
    (g : Hypergraph) (hyperedge_id : EdgeId) : Except PyErr (Option ℚ) :=
  match lookupKey g.hyperedges hyperedge_id with
  | none => .ok none
  | some ns =>
    if ns.length < 2 then .ok (some 1)
    else do
      let r ← (pairCombinations ns).foldlM
        (fun (acc : ℚ × ℕ) pr => do
          let e ← emd pr.1 pr.2
          match e with
          | some c => pure (acc.1 + c, acc.2 + 1)
          | none => pure acc) ((0 : ℚ), (0 : ℕ))
      if r.2 > 0 then
        let average_emd := r.1 / (r.2 : ℚ)
        let weight := lastWeight g hyperedge_id
        if weight = 0 then pure (some (1 - average_emd))
        else pure (some (1 - average_emd / weight))
      else pure none

/-- The successful (non-`None`, non-raising) transport distances among a
list of node pairs, in order. -/
def successList (emd : Node → Node → Except PyErr (Option ℚ))
    (l : List (Node × Node)) : List ℚ :=
  l.filterMap (fun pr => ((emd pr.1 pr.2).toOption).join)

/-- The mean transport distance over the successful member pairs of a
member list (the spec's "average"). -/
def averageEmd (emd : Node → Node → Except PyErr (Option ℚ))
    (ns : List Node) : ℚ :=
  (successList emd (pairCombinations ns)).sum /
    ((successList emd (pairCombinations ns)).length : ℚ)

theorem foldlM_emd_sum_count (emd : Node → Node → Except PyErr (Option ℚ))
    (hemd : ∀ a b, ∃ r, emd a b = Except.ok r)
    (l : List (Node × Node)) (s : ℚ) (c : ℕ) :
    (l.foldlM
      (fun (acc : ℚ × ℕ) pr => do
        let e ← emd pr.1 pr.2
        match e with
        | some v => pure (acc.1 + v, acc.2 + 1)
        | none => pure acc) (s, c) : Except PyErr (ℚ × ℕ)) =
      .ok (s + (successList emd l).sum, c + (successList emd l).length) := by
  induction l generalizing s c with
  | nil =>
    simp only [List.foldlM_nil, successList, List.filterMap_nil, List.sum_nil,
      List.length_nil, Nat.add_zero, add_zero]
    rfl
  | cons pr t ih =>
    obtain ⟨r, hr⟩ := hemd pr.1 pr.2
    rw [List.foldlM_cons]
    cases r with
    | none =>
      have hsucc : successList emd (pr :: t) = successList emd t := by
        simp [successList, List.filterMap_cons, hr, Except.toOption]
      have hbind :
          (do
            let e ← emd pr.1 pr.2
            match e with
            | some v => pure ((s, c).1 + v, (s, c).2 + 1)
            | none => pure (s, c) : Except PyErr (ℚ × ℕ)) = .ok (s, c) := by
        rw [hr]; rfl
      rw [hbind]
      show (t.foldlM _ (s, c) : Except PyErr (ℚ × ℕ)) = _
      rw [ih, hsucc]
    | some v =>
      have hsucc : successList emd (pr :: t) = v :: successList emd t := by
        simp [successList, List.filterMap_cons, hr, Except.toOption]
      have hbind :
          (do
            let e ← emd pr.1 pr.2
            match e with
            | some v => pure ((s, c).1 + v, (s, c).2 + 1)
            | none => pure (s, c) : Except PyErr (ℚ × ℕ)) = .ok (s + v, c + 1) := by
        rw [hr]; rfl
      rw [hbind]
      show (t.foldlM _ (s + v, c + 1) : Except PyErr (ℚ × ℕ)) = _
      rw [ih, hsucc]
      simp only [List.sum_cons, List.length_cons, Except.ok.injEq, Prod.mk.injEq]
      constructor
      · ring
      · omega

/-- C6: for a hyperedge present in the store with a non-raising pairwise
transport call, a member list of size < 2 yields curvature 1; otherwise,
when at least one pair succeeds, the curvature is `1 − average` for a
zero current weight and `1 − average/weight` for a non-zero weight. -/
theorem curvature_per_hyperedge (emd : Node → Node → Except PyErr (Option ℚ))
    (g : Hypergraph) (id : EdgeId) (ns : List Node)
    (hns : lookupKey g.hyperedges id = some ns)
    (hemd : ∀ a b, ∃ r, emd a b = Except.ok r) :
    (ns.length < 2 →
      earthmover_distance_hyperedge_combinations emd g id = .ok (some 1)) ∧
    (¬ns.length < 2 → successList emd (pairCombinations ns) ≠ [] →
      earthmover_distance_hyperedge_combinations emd g id =
        .ok (some
          (if lastWeight g id = 0 then 1 - averageEmd emd ns
           else 1 - averageEmd emd ns / lastWeight g id))) := by
  constructor
  · intro hlen
    unfold earthmover_distance_hyperedge_combinations
    simp only [hns]
    rw [if_pos hlen]
  · intro hlen hne
    have hfold := foldlM_emd_sum_count emd hemd (pairCombinations ns) 0 0
    unfold earthmover_distance_hyperedge_combinations
    simp only [hns]
    rw [if_neg hlen, hfold]
    simp only [Bind.bind, Except.bind]
    have hpos : 0 + (successList emd (pairCombinations ns)).length > 0 := by
      simpa using List.length_pos.mpr hne
    rw [if_pos hpos]
    simp only [zero_add, averageEmd]
    by_cases hw : lastWeight g id = 0
    · rw [if_pos hw, if_pos hw]; rfl
    · rw [if_neg hw, if_neg hw]; rfl

/-- Witness for C6 at the three-member hyperedge `10` of `gEx` with a
constant pairwise transport distance of `1/2`. -/
theorem curvature_per_hyperedge_witness :
    (([1, 2, 3] : List Node).length < 2 →
      earthmover_distance_hyperedge_combinations (fun _ _ => .ok (some (1/2))) gEx 10 =
        .ok (some 1)) ∧
    (¬([1, 2, 3] : List Node).length < 2 →
      successList (fun _ _ => .ok (some (1/2))) (pairCombinations [1, 2, 3]) ≠ [] →
      earthmover_distance_hyperedge_combinations (fun _ _ => .ok (some (1/2))) gEx 10 =
        .ok (some
          (if lastWeight gEx 10 = 0 then
            1 - averageEmd (fun _ _ => .ok (some (1/2))) [1, 2, 3]
           else
            1 - averageEmd (fun _ _ => .ok (some (1/2))) [1, 2, 3] /
              lastWeight gEx 10))) :=
  curvature_per_hyperedge (fun _ _ => .ok (some (1/2))) gEx 10 [1, 2, 3] rfl
    (fun _ _ => ⟨some (1/2), rfl⟩)

/-- Loop state of the weight-update passes: the mutated store, the rows
written to the output table (`Hyperedge ID, ORC, Weight`), and the
loop-local `normalized_weight` variable, which in Python persists across
loop iterations and is unbound (`none` here) before its first assignment. -/
structure UpdateState where
  g : Hypergraph
  rows : List (EdgeId × Option ℚ × ℚ)
  normalized_weight : Option ℚ
  deriving Repr

/-- Python `1 - orc` where `orc` may be `None`: raises `TypeError` on
`None` (unsupported operand types for int and NoneType). -/
def pyOneMinus : Option ℚ → Except PyErr ℚ
  | some c => .ok (1 - c)
  | none => .error .typeError

/-- Reading a Python local variable that may be unbound: `NameError` when
it was never assigned. -/
def readLocal : Option ℚ → Except PyErr ℚ
  | some v => .ok v
  | none => .error .nameError

/-- One hyperedge of the `update_orc_and_weights_iter0` loop body.  Note
the zero-weight branch of the source reads `normalized_weight == 0` — a
comparison, not an assignment — so it only evaluates the (possibly
unbound) local and leaves it unchanged. -/
def update_orc_and_weights_iter0_step (sigmoid : ℚ → ℚ)
    (emd : Node → Node → Except PyErr (Option ℚ))
    (st : UpdateState) (hyperedge_id : EdgeId) : Except PyErr UpdateState := do
  let orc ← earthmover_distance_hyperedge_combinations emd st.g hyperedge_id
  let g1 := add_ricci_curvature st.g hyperedge_id orc
  let weight := lastWeight g1 hyperedge_id
  let nw ←
    if weight ≠ 0 then do
      let m ← pyOneMinus orc
      pure (some (sigmoid (weight * m)))
    else do
      let v ← readLocal st.normalized_weight
      let _ := decide (v = 0)
      pure st.normalized_weight
  let nwv ← readLocal nw
  pure { g := add_weights g1 hyperedge_id (some nwv)
         rows := st.rows ++ [(hyperedge_id, orc, nwv)]
         normalized_weight := nw }

/-- `update_orc_and_weights_iter0`: the iteration-0 pass over every
hyperedge id, threading the store, output rows and the loop-local
variable.  `sigmoid` abstracts `adjusted_sigmoid_0_to_1` (a clipped
logistic squashing, not needed exactly by any claim here). -/
def update_orc_and_weights_iter0 (sigmoid : ℚ → ℚ)
    (emd : Node → Node → Except PyErr (Option ℚ)) (g : Hypergraph) :
    Except PyErr UpdateState :=
  (g.hyperedges.map Prod.fst).foldlM
    (update_orc_and_weights_iter0_step sigmoid emd)
    { g := g, rows := [], normalized_weight := none }

/-- The parameter list (after `self`) of
`earthmover_distance_hyperedge_combinations` in the source — three
parameters, none of which has a default value. -/
def emdCombinationsParams : List String :=
  ["hyperedge_id", "distance_matrix", "verbose"]

/-- Python positional call binding: passing fewer positional arguments
than the number of parameters without defaults (or more than all
parameters) raises `TypeError`. -/
def checkCallArity (params : List String) (defaults given : ℕ) :
    Except PyErr Unit :=
  if given < params.length - defaults ∨ params.length < given then
    .error .typeError
  else .ok ()

/-- One hyperedge of the `update_orc_and_weights_iter` (iterations ≥ 1)
loop body.  The source invokes
`earthmover_distance_hyperedge_combinations(hyperedge_id, distance_matrix)`
with two positional arguments against the three required parameters, so
the call itself raises `TypeError` before anything is computed; its
zero-weight branch (unlike iteration 0's) genuinely assigns 0. -/
def update_orc_and_weights_iter_step (sigmoid : ℚ → ℚ)
    (emd : Node → Node → Except PyErr (Option ℚ))
    (st : UpdateState) (hyperedge_id : EdgeId) : Except PyErr UpdateState := do
  let _ ← checkCallArity emdCombinationsParams 0 2
  let orc ← earthmover_distance_hyperedge_combinations emd st.g hyperedge_id
  let g1 := add_ricci_curvature st.g hyperedge_id orc
  let weight := lastWeight g1 hyperedge_id
  let nw ←
    if weight ≠ 0 then do
      let m ← pyOneMinus orc
      pure (some (sigmoid (weight * m)))
    else pure (some 0)
  let nwv ← readLocal nw
  pure { g := add_weights g1 hyperedge_id (some nwv)
         rows := st.rows ++ [(hyperedge_id, orc, nwv)]
         normalized_weight := nw }

/-- `update_orc_and_weights_iter`: the per-iteration (k ≥ 1) pass over
every hyperedge id. -/
def update_orc_and_weights_iter (sigmoid : ℚ → ℚ)
    (emd : Node → Node → Except PyErr (Option ℚ)) (g : Hypergraph) :
    Except PyErr UpdateState :=
  (g.hyperedges.map Prod.fst).foldlM
    (update_orc_and_weights_iter_step sigmoid emd)
    { g := g, rows := [], normalized_weight := none }

/-- C2 (evaluation at the failing input): on any store with at least one
hyperedge, every iteration ≥ 1 pass raises `TypeError` at its first
hyperedge — the two-positional-argument call against three required
parameters — so no curvature or weight is recorded and no row is
written. -/
theorem update_iter_raises_type_error (sigmoid : ℚ → ℚ)
    (emd : Node → Node → Except PyErr (Option ℚ)) (g : Hypergraph)
    (h : g.hyperedges ≠ []) :
    update_orc_and_weights_iter sigmoid emd g = .error .typeError := by
  obtain ⟨p, t, hpt⟩ : ∃ p t, g.hyperedges = p :: t := by
    cases hg : g.hyperedges with
    | nil => exact absurd hg h
    | cons p t => exact ⟨p, t, rfl⟩
  unfold update_orc_and_weights_iter
  rw [hpt, List.map_cons, List.foldlM_cons]
  have hstep : update_orc_and_weights_iter_step sigmoid emd
      { g := g, rows := [], normalized_weight := none } p.1 =
      .error .typeError := by
    unfold update_orc_and_weights_iter_step checkCallArity emdCombinationsParams
    rfl
  rw [hstep]
  rfl

/-- Witness for C2 at the concrete store `gEx`. -/
theorem update_iter_raises_type_error_witness :
    update_orc_and_weights_iter (fun x => x) (fun _ _ => .ok none) gEx =
      .error .typeError :=
  update_iter_raises_type_error (fun x => x) (fun _ _ => .ok none) gEx
    (by decide)

/-- Single-hyperedge store whose every pairwise transport fails:
hyperedge `0 ↦ [0, 1]` with current weight 1. -/
def gC4 : Hypergraph :=
  { nodes := [0, 1]
    hyperedges := [(0, [0, 1])]
    weights := [(0, [1])]
    ricci_curvature := [] }

/-- C4 (evaluation at the failing input): with every pairwise transport
failing, the hyperedge's curvature is `None`; its current weight is 1 ≠ 0,
and instead of skipping, the iteration-0 weight update evaluates
`weight * (1 - None)` and raises `TypeError`, aborting the pass. -/
theorem zero_success_curvature_crashes_weight_update :
    earthmover_distance_hyperedge_combinations (fun _ _ => .ok none) gC4 0 =
      .ok none ∧
    lastWeight gC4 0 = 1 ∧
    update_orc_and_weights_iter0 (fun x => x) (fun _ _ => .ok none) gC4 =
      .error .typeError := by
  refine ⟨?_, ?_, ?_⟩
  · rfl
  · rfl
  · unfold update_orc_and_weights_iter0
    show (update_orc_and_weights_iter0_step (fun x => x) (fun _ _ => .ok none)
        { g := gC4, rows := [], normalized_weight := none } 0 >>= _) = _
    have hstep : update_orc_and_weights_iter0_step (fun x => x)
        (fun _ _ => .ok none)
        { g := gC4, rows := [], normalized_weight := none } 0 =
        .error .typeError := by
      unfold update_orc_and_weights_iter0_step
      have hemd : earthmover_distance_hyperedge_combinations
          (fun _ _ => .ok none) gC4 0 = .ok none := rfl
      rw [hemd]
      have hlw : lastWeight (add_ricci_curvature gC4 0 none) 0 = 1 := rfl
      simp only [Bind.bind, Except.bind, hlw]
      norm_num
      rfl
    rw [hstep]
    rfl

/-- Two-hyperedge store for C5: hyperedge `0` has current weight 1 and
hyperedge `1` has current weight 0. -/
def gC5 : Hypergraph :=
  { nodes := [0, 1]
    hyperedges := [(0, [0, 1]), (1, [0, 1])]
    weights := [(0, [1]), (1, [0])]
    ricci_curvature := [] }

/-- The constant transport oracle used in the C5 evaluation: every pair
succeeds with distance `1/2`. -/
def emdC5 : Node → Node → Except PyErr (Option ℚ) :=
  fun _ _ => .ok (some (1/2))

/-- C5 (evaluation at the failing input): in the iteration-0 pass the
zero-weight branch reads `normalized_weight == 0` (comparison, not
assignment), so for hyperedge `1` — whose current weight is 0 — the value
appended to its weight history is the stale `normalized_weight` left over
from hyperedge `0`, here `1/2`, not the claimed `0`.  (Had the
zero-weight hyperedge come first, the pass would instead raise
`NameError` on the unbound local.) -/
theorem iter0_zero_weight_appends_stale_value :
    lastWeight gC5 1 = 0 ∧
    (update_orc_and_weights_iter0 (fun _ => 1/2) emdC5 gC5).toOption.map
        (fun st => lookupKey st.g.weights 1) = some (some [0, 1/2]) ∧
    ((1 : ℚ)/2) ≠ 0 := by
  refine ⟨rfl, ?_, by norm_num⟩
  have hrun : update_orc_and_weights_iter0 (fun _ => 1/2) emdC5 gC5 =
      .ok { g := { nodes := [0, 1]
                   hyperedges := [(0, [0, 1]), (1, [0, 1])]
                   weights := [(0, [1, 1/2]), (1, [0, 1/2])]
                   ricci_curvature := [(0, [some (1/2)]), (1, [some (1/2)])] }
            rows := [(0, some (1/2), 1/2), (1, some (1/2), 1/2)]
            normalized_weight := some (1/2) } := by
    norm_num [update_orc_and_weights_iter0, update_orc_and_weights_iter0_step,
      earthmover_distance_hyperedge_combinations, emdC5, gC5, pairCombinations,
      lookupKey, lastWeight, add_ricci_curvature, add_weights, appendAt, hasKey,
      pyOneMinus, readLocal, List.foldlM_cons, List.foldlM_nil,
      Bind.bind, Except.bind, pure, Except.pure]
  rw [hrun]
  rfl

/-- The file name `update_orc_and_weights_iter` writes its per-iteration
weight/curvature table to (relative to the working directory):
`dataset_networkscience_normalized_weights_data_iteration_{iteration}.{file_format}`. -/
def iter_weights_file_name (iteration : ℕ) (file_format : String) : String :=
  "dataset_networkscience_normalized_weights_data_iteration_" ++
    toString iteration ++ "." ++ file_format

/-- The path the main loop hands to `delete_hyperedges` on even
iterations:
`outputfiles/dataset_networkscience_normalized_weights_data_iteration_{i}.csv`. -/
def main_loop_weights_read_path (i : ℕ) : String :=
  "outputfiles/dataset_networkscience_normalized_weights_data_iteration_" ++
    toString i ++ ".csv"

/-- `delete_hyperedges`' removal count, `int(percentage * total)` with
`percentage = 0.08`: at `total = 25` the float product is exactly `2.0`,
so truncation agrees with the exact rational floor used here. -/
def delete_count (total_hyperedges : ℕ) : ℕ :=
  (⌊(8 / 100 : ℚ) * total_hyperedges⌋).toNat

/-- C3 (evaluation at the failing input): at the first even iteration
(k = 2) the weight table is written to
`dataset_..._iteration_2.csv` in the working directory, but the surgery
step reads `outputfiles/dataset_..._iteration_2.csv` — a different path —
so it does not read back the just-written table.  The claimed count
itself is right: with 25 hyperedges `int(0.08·25) = 2`. -/
theorem surgery_reads_path_not_written :
    main_loop_weights_read_path 2 ≠ iter_weights_file_name 2 "csv" ∧
    delete_count 25 = 2 := by
  constructor
  · decide
  · have h2 : ((8 / 100 : ℚ) * (25 : ℕ)) = 2 := by norm_num
    rw [delete_count, h2]
    decide

/-! ### Floyd–Warshall distance matrix -/

/-- Matrix entries: `ℚ` extended with `⊤`, modelling Python's
`float('inf')` (for which `inf + x = inf` and `inf > x` hold, exactly as
for `⊤` here). -/
abbrev QInf := WithTop ℚ

/-- The node → index map built by `floyd_warshall`
(`{node: idx for idx, node in enumerate(node_list)}`): since the node
list enumerates a Python set it has no duplicates, so the dict index is
the position of the node in the list. -/
def idxOf (g : Hypergraph) (x : Node) : ℕ :=
  g.nodes.indexOf x

/-- The n×n matrix `dist` right after initialization: `0` on the
diagonal, `inf` elsewhere (indices outside the allocated range are `⊤`,
they are never touched by the algorithm). -/
def initDist (n : ℕ) : ℕ → ℕ → QInf :=
  fun i j => if i < n ∧ j < n then (if i = j then 0 else ⊤) else ⊤

/-- The source's paired assignment `dist[a][b] = v; dist[b][a] = v`. -/
def updateSym (d : ℕ → ℕ → QInf) (a b : ℕ) (v : QInf) : ℕ → ℕ → QInf :=
  fun x y => if (x = a ∧ y = b) ∨ (x = b ∧ y = a) then v else d x y

/-- One step of the edge-initialization loop:
`if dist[a][b] > weight: dist[a][b] = weight; dist[b][a] = weight`. -/
def relaxEdgePair (w : ℚ) (a b : ℕ) (d : ℕ → ℕ → QInf) : ℕ → ℕ → QInf :=
  if d a b > (w : QInf) then updateSym d a b (w : QInf) else d

/-- The matrix after the per-hyperedge initialization loops: for every
hyperedge (with its latest weight) and every member pair, relax the
corresponding index pair. -/
def edgeInit (g : Hypergraph) : ℕ → ℕ → QInf :=
  g.hyperedges.foldl
    (fun d p =>
      (pairCombinations p.2).foldl
        (fun d' q => relaxEdgePair (lastWeight g p.1) (idxOf g q.1) (idxOf g q.2) d')
        d)
    (initDist g.nodes.length)

/-- The body of the triple loop:
`if dist[i][j] > dist[i][k] + dist[k][j]: dist[i][j] = ...; dist[j][i] = dist[i][j]`. -/
def fwUpdate (k : ℕ) (d : ℕ → ℕ → QInf) (i j : ℕ) : ℕ → ℕ → QInf :=
  if d i j > d i k + d k j then updateSym d i j (d i k + d k j) else d

/-- The inner `for j in range(n)` loop at row `i` of round `k`. -/
def fwInner (n k i : ℕ) (d : ℕ → ℕ → QInf) : ℕ → ℕ → QInf :=
  (List.range n).foldl (fun d' j => fwUpdate k d' i j) d

/-- The middle `for i in range(n)` loop of round `k`. -/
def fwRound (n k : ℕ) (d : ℕ → ℕ → QInf) : ℕ → ℕ → QInf :=
  (List.range n).foldl (fun d' i => fwInner n k i d') d

/-- The outer `for k in range(n)` loop. -/
def fwLoop (n : ℕ) (d : ℕ → ℕ → QInf) : ℕ → ℕ → QInf :=
  (List.range n).foldl (fun d' k => fwRound n k d') d

/-- `floyd_warshall`: initialize from the hyperedge pairs, run the triple
loop, then replace the remaining `inf` entries by `0`. -/
def floyd_warshall (g : Hypergraph) : List (List ℚ) :=
  let n := g.nodes.length
  let d := fwLoop n (edgeInit g)
  (List.range n).map (fun i => (List.range n).map (fun j => (d i j).untop' 0))

/-- Entry access into the returned matrix. -/
def matEntry (m : List (List ℚ)) (i j : ℕ) : ℚ :=
  (m.getD i []).getD j 0

/-- Stated from the spec (§4.2): the weight of the index pair `(i, j)` in
the hyperedge-induced graph — the minimum, over the hyperedges whose
member list contains both endpoint nodes, of the hyperedge's latest
weight; `⊤` when no hyperedge connects the pair (or out of range, or on
the diagonal — a pair-edge joins two distinct nodes). -/
def specEdgeWeight (g : Hypergraph) (i j : ℕ) : QInf :=
  if i < g.nodes.length ∧ j < g.nodes.length ∧ i ≠ j then
    ((g.hyperedges.filter (fun p =>
        decide (g.nodes.getD i 0 ∈ p.2) && decide (g.nodes.getD j 0 ∈ p.2))).map
      (fun p => ((lastWeight g p.1 : ℚ) : QInf))).foldr min ⊤
  else ⊤

/-- A path from index `i` to index `j` in the hyperedge-induced graph:
a vertex list starting at `i`, ending at `j`, each consecutive pair
joined by an actual pair-edge. -/
def IsWalk (g : Hypergraph) (i j : ℕ) (p : List ℕ) : Prop :=
  p.head? = some i ∧ p.getLast? = some j ∧
    p.Chain' (fun a b => specEdgeWeight g a b ≠ ⊤)

/-- The cumulative weight of a vertex list. -/
def walkCost (g : Hypergraph) : List ℕ → QInf
  | [] => 0
  | [_] => 0
  | a :: b :: rest => specEdgeWeight g a b + walkCost g (b :: rest)

/-- Symmetry of a matrix. -/
def Sym (d : ℕ → ℕ → QInf) : Prop := ∀ x y, d x y = d y x

/-- All entries non-negative. -/
def Nonneg (d : ℕ → ℕ → QInf) : Prop := ∀ x y, 0 ≤ d x y

/-- Entries outside the allocated n×n range are `⊤`. -/
def OutTop (n : ℕ) (d : ℕ → ℕ → QInf) : Prop :=
  ∀ x y, n ≤ x ∨ n ≤ y → d x y = ⊤

/-- Every hyperedge's latest weight is non-negative — an invariant of the
program's stores (weights start at 1 and appended weights are logistic
outputs or 0). -/
def WeightsNonneg (g : Hypergraph) : Prop :=
  ∀ p ∈ g.hyperedges, 0 ≤ lastWeight g p.1

/-- The functional form of one round: `min(d i j, d i k + d k j)`. -/
def roundF (k : ℕ) (d : ℕ → ℕ → QInf) : ℕ → ℕ → QInf :=
  fun i j => min (d i j) (d i k + d k j)

/-- The functional Floyd–Warshall recurrence. -/
def fwRecN (d : ℕ → ℕ → QInf) : ℕ → (ℕ → ℕ → QInf)
  | 0 => d
  | k + 1 => roundF k (fwRecN d k)

section EdgeInitLemmas

/-- The edge-relaxation triples processed by the initialization loops, in
order: one `(index of u, index of v, hyperedge weight)` per hyperedge and
member pair. -/
def relaxTriples (g : Hypergraph) : List (ℕ × ℕ × ℚ) :=
  g.hyperedges.flatMap (fun p =>
    (pairCombinations p.2).map
      (fun q => (idxOf g q.1, idxOf g q.2, lastWeight g p.1)))

/-- Folding the relaxation over a triple list. -/
def relaxList (ts : List (ℕ × ℕ × ℚ)) (d : ℕ → ℕ → QInf) : ℕ → ℕ → QInf :=
  ts.foldl (fun d' t => relaxEdgePair t.2.2 t.1 t.2.1 d') d

/-- A triple concerns the (unordered) index pair `{x, y}`. -/
def tripApplies (t : ℕ × ℕ × ℚ) (x y : ℕ) : Prop :=
  (t.1 = x ∧ t.2.1 = y) ∨ (t.1 = y ∧ t.2.1 = x)

instance (t : ℕ × ℕ × ℚ) (x y : ℕ) : Decidable (tripApplies t x y) := by
  unfold tripApplies
  infer_instance

/-- The minimum weight among the triples concerning `{x, y}`. -/
def tripMin (ts : List (ℕ × ℕ × ℚ)) (x y : ℕ) : QInf :=
  ((ts.filter (fun t => decide (tripApplies t x y))).map
    (fun t => ((t.2.2 : ℚ) : QInf))).foldr min ⊤

theorem foldr_min_le {l : List QInf} {x : QInf} (hx : x ∈ l) :
    l.foldr min ⊤ ≤ x := by
  induction l with
  | nil => cases hx
  | cons a t ih =>
    rcases List.mem_cons.mp hx with rfl | hx
    · exact min_le_left _ _
    · exact le_trans (min_le_right _ _) (ih hx)

theorem le_foldr_min {l : List QInf} {c : QInf} (h : ∀ x ∈ l, c ≤ x) :
    c ≤ l.foldr min ⊤ := by
  induction l with
  | nil => exact le_top
  | cons a t ih =>
    exact le_min (h a (List.mem_cons_self a t))
      (ih (fun x hx => h x (List.mem_cons_of_mem a hx)))

theorem edgeInit_eq_relaxList (g : Hypergraph) :
    edgeInit g = relaxList (relaxTriples g) (initDist g.nodes.length) := by
  unfold edgeInit relaxTriples relaxList
  generalize initDist g.nodes.length = d0
  induction g.hyperedges generalizing d0 with
  | nil => rfl
  | cons p t ih =>
    rw [List.foldl_cons, List.flatMap_cons, List.foldl_append, List.foldl_map, ih]

theorem relaxEdgePair_entry (w : ℚ) (a b : ℕ) (d : ℕ → ℕ → QInf) (hd : Sym d)
    (x y : ℕ) :
    relaxEdgePair w a b d x y =
      if tripApplies (a, b, w) x y then min (d x y) (w : QInf) else d x y := by
  have hiff : ((x = a ∧ y = b) ∨ (x = b ∧ y = a)) ↔ tripApplies (a, b, w) x y := by
    unfold tripApplies
    constructor
    · rintro (⟨rfl, rfl⟩ | ⟨rfl, rfl⟩)
      · exact Or.inl ⟨rfl, rfl⟩
      · exact Or.inr ⟨rfl, rfl⟩
    · rintro (⟨rfl, rfl⟩ | ⟨rfl, rfl⟩)
      · exact Or.inl ⟨rfl, rfl⟩
      · exact Or.inr ⟨rfl, rfl⟩
  unfold relaxEdgePair updateSym
  by_cases happ : tripApplies (a, b, w) x y
  · have hxy : d x y = d a b := by
      rcases hiff.mpr happ with ⟨rfl, rfl⟩ | ⟨rfl, rfl⟩
      · rfl
      · exact hd x y
    rw [if_pos happ]
    by_cases hgt : d a b > (w : QInf)
    · rw [if_pos hgt, if_pos (hiff.mpr happ), hxy]
      exact (min_eq_right (le_of_lt hgt)).symm
    · rw [if_neg hgt]
      push_neg at hgt
      rw [hxy]
      exact (min_eq_left hgt).symm
  · rw [if_neg happ]
    by_cases hgt : d a b > (w : QInf)
    · rw [if_pos hgt, if_neg (fun hc => happ (hiff.mp hc))]
    · rw [if_neg hgt]

theorem relaxEdgePair_sym (w : ℚ) (a b : ℕ) (d : ℕ → ℕ → QInf) (hd : Sym d) :
    Sym (relaxEdgePair w a b d) := by
  intro x y
  rw [relaxEdgePair_entry w a b d hd x y, relaxEdgePair_entry w a b d hd y x,
    hd x y]
  have : tripApplies (a, b, w) x y ↔ tripApplies (a, b, w) y x := by
    unfold tripApplies; tauto
  by_cases h : tripApplies (a, b, w) x y
  · rw [if_pos h, if_pos (this.mp h)]
  · rw [if_neg h, if_neg (fun hc => h (this.mpr hc))]

theorem tripMin_cons (t : ℕ × ℕ × ℚ) (ts : List (ℕ × ℕ × ℚ)) (x y : ℕ) :
    tripMin (t :: ts) x y =
      if tripApplies t x y then min ((t.2.2 : ℚ) : QInf) (tripMin ts x y)
      else tripMin ts x y := by
  by_cases h : tripApplies t x y <;>
    simp [tripMin, List.filter_cons, h]

theorem relaxList_entry (ts : List (ℕ × ℕ × ℚ)) (d : ℕ → ℕ → QInf)
    (hd : Sym d) (x y : ℕ) :
    relaxList ts d x y = min (d x y) (tripMin ts x y) := by
  induction ts generalizing d with
  | nil =>
    simp only [relaxList, List.foldl_nil, tripMin, List.filter_nil,
      List.map_nil, List.foldr_nil]
    exact (min_eq_left le_top).symm
  | cons t ts ih =>
    show relaxList ts (relaxEdgePair t.2.2 t.1 t.2.1 d) x y = _
    rw [ih (relaxEdgePair t.2.2 t.1 t.2.1 d) (relaxEdgePair_sym _ _ _ d hd),
      relaxEdgePair_entry t.2.2 t.1 t.2.1 d hd x y, tripMin_cons]
    by_cases h : tripApplies (t.1, t.2.1, t.2.2) x y
    · have h' : tripApplies t x y := h
      rw [if_pos h, if_pos h', min_assoc]
    · have h' : ¬tripApplies t x y := h
      rw [if_neg h, if_neg h']

theorem relaxList_sym (ts : List (ℕ × ℕ × ℚ)) (d : ℕ → ℕ → QInf)
    (hd : Sym d) : Sym (relaxList ts d) := by
  induction ts generalizing d with
  | nil => exact hd
  | cons t ts ih => exact ih _ (relaxEdgePair_sym _ _ _ d hd)

theorem initDist_sym (n : ℕ) : Sym (initDist n) := by
  intro x y
  unfold initDist
  by_cases hx : x < n <;> by_cases hy : y < n <;>
    simp [hx, hy, eq_comm, and_comm]

theorem mem_pairCombinations_mem {l : List Node} {a b : Node}
    (h : (a, b) ∈ pairCombinations l) : a ∈ l ∧ b ∈ l := by
  induction l with
  | nil => cases h
  | cons x xs ih =>
    unfold pairCombinations at h
    rcases List.mem_append.mp h with h | h
    · obtain ⟨y, hy, heq⟩ := List.mem_map.mp h
      cases heq
      exact ⟨List.mem_cons_self _ _, List.mem_cons_of_mem _ hy⟩
    · obtain ⟨ha, hb⟩ := ih h
      exact ⟨List.mem_cons_of_mem _ ha, List.mem_cons_of_mem _ hb⟩

theorem pairCombinations_of_mem {a b : Node} {l : List Node} :
    a ∈ l → b ∈ l → a ≠ b →
    (a, b) ∈ pairCombinations l ∨ (b, a) ∈ pairCombinations l := by
  induction l with
  | nil => intro ha _ _; cases ha
  | cons x xs ih =>
    intro ha hb hne
    unfold pairCombinations
    rcases List.mem_cons.mp ha with h1 | h1
    · subst h1
      have hbx : b ∈ xs := by
        rcases List.mem_cons.mp hb with h2 | h2
        · exact absurd h2.symm hne
        · exact h2
      exact Or.inl (List.mem_append.mpr (Or.inl
        (List.mem_map.mpr ⟨b, hbx, rfl⟩)))
    · rcases List.mem_cons.mp hb with h2 | h2
      · subst h2
        exact Or.inr (List.mem_append.mpr (Or.inl
          (List.mem_map.mpr ⟨a, h1, rfl⟩)))
      · rcases ih h1 h2 hne with h | h
        · exact Or.inl (List.mem_append.mpr (Or.inr h))
        · exact Or.inr (List.mem_append.mpr (Or.inr h))

theorem mem_relaxTriples {g : Hypergraph} {t : ℕ × ℕ × ℚ} :
    t ∈ relaxTriples g ↔
      ∃ p ∈ g.hyperedges, ∃ q ∈ pairCombinations p.2,
        t = (idxOf g q.1, idxOf g q.2, lastWeight g p.1) := by
  unfold relaxTriples
  simp only [List.mem_flatMap, List.mem_map]
  constructor
  · rintro ⟨p, hp, q, hq, rfl⟩
    exact ⟨p, hp, q, hq, rfl⟩
  · rintro ⟨p, hp, q, hq, rfl⟩
    exact ⟨p, hp, q, hq, rfl⟩

theorem idxOf_lt {g : Hypergraph} {x : Node} (hx : x ∈ g.nodes) :
    idxOf g x < g.nodes.length :=
  List.indexOf_lt_length.mpr hx

theorem getD_idxOf {g : Hypergraph} {x : Node} (hx : x ∈ g.nodes) :
    g.nodes.getD (idxOf g x) 0 = x := by
  rw [List.getD_eq_getElem _ _ (idxOf_lt hx)]
  exact List.getElem_indexOf (List.indexOf_lt_length.mpr hx)

theorem idxOf_getD {g : Hypergraph} (hnd : g.nodes.Nodup) {i : ℕ}
    (hi : i < g.nodes.length) :
    idxOf g (g.nodes.getD i 0) = i := by
  have h := List.indexOf_getElem hnd i hi
  rw [List.getD_eq_getElem _ _ hi]
  exact h

theorem tripMin_le {ts : List (ℕ × ℕ × ℚ)} {x y : ℕ} {t : ℕ × ℕ × ℚ}
    (ht : t ∈ ts) (happ : tripApplies t x y) :
    tripMin ts x y ≤ ((t.2.2 : ℚ) : QInf) := by
  apply foldr_min_le
  exact List.mem_map.mpr ⟨t, List.mem_filter.mpr ⟨ht, by simpa using happ⟩, rfl⟩

theorem le_tripMin {ts : List (ℕ × ℕ × ℚ)} {x y : ℕ} {c : QInf}
    (h : ∀ t ∈ ts, tripApplies t x y → c ≤ ((t.2.2 : ℚ) : QInf)) :
    c ≤ tripMin ts x y := by
  apply le_foldr_min
  intro v hv
  obtain ⟨t, htf, rfl⟩ := List.mem_map.mp hv
  obtain ⟨hts, happ⟩ := List.mem_filter.mp htf
  exact h t hts (by simpa using happ)

theorem tripMin_eq_specEdgeWeight (g : Hypergraph) (hnd : g.nodes.Nodup)
    (hcl : Closed g) {i j : ℕ} (hi : i < g.nodes.length)
    (hj : j < g.nodes.length) (hij : i ≠ j) :
    tripMin (relaxTriples g) i j = specEdgeWeight g i j := by
  unfold specEdgeWeight
  rw [if_pos ⟨hi, hj, hij⟩]
  apply le_antisymm
  · apply le_foldr_min
    intro v hv
    obtain ⟨p, hpf, rfl⟩ := List.mem_map.mp hv
    obtain ⟨hp, hcond⟩ := List.mem_filter.mp hpf
    rw [Bool.and_eq_true, decide_eq_true_eq, decide_eq_true_eq] at hcond
    obtain ⟨hni, hnj⟩ := hcond
    have hne : g.nodes.getD i 0 ≠ g.nodes.getD j 0 := by
      intro hc
      apply hij
      have e1 := idxOf_getD hnd hi
      have e2 := idxOf_getD hnd hj
      rw [← e1, ← e2, hc]
    rcases pairCombinations_of_mem hni hnj hne with hq | hq
    · have ht : (idxOf g (g.nodes.getD i 0), idxOf g (g.nodes.getD j 0),
          lastWeight g p.1) ∈ relaxTriples g :=
        mem_relaxTriples.mpr ⟨p, hp, _, hq, rfl⟩
      have happ : tripApplies (idxOf g (g.nodes.getD i 0),
          idxOf g (g.nodes.getD j 0), lastWeight g p.1) i j :=
        Or.inl ⟨idxOf_getD hnd hi, idxOf_getD hnd hj⟩
      exact tripMin_le ht happ
    · have ht : (idxOf g (g.nodes.getD j 0), idxOf g (g.nodes.getD i 0),
          lastWeight g p.1) ∈ relaxTriples g :=
        mem_relaxTriples.mpr ⟨p, hp, _, hq, rfl⟩
      have happ : tripApplies (idxOf g (g.nodes.getD j 0),
          idxOf g (g.nodes.getD i 0), lastWeight g p.1) i j :=
        Or.inr ⟨idxOf_getD hnd hj, idxOf_getD hnd hi⟩
      exact tripMin_le ht happ
  · apply le_tripMin
    intro t ht happ
    obtain ⟨p, hp, q, hq, rfl⟩ := mem_relaxTriples.mp ht
    obtain ⟨hq1, hq2⟩ := mem_pairCombinations_mem hq
    have hq1n : q.1 ∈ g.nodes := hcl p hp q.1 hq1
    have hq2n : q.2 ∈ g.nodes := hcl p hp q.2 hq2
    have hmem : p ∈ g.hyperedges.filter (fun p =>
        decide (g.nodes.getD i 0 ∈ p.2) && decide (g.nodes.getD j 0 ∈ p.2)) := by
      apply List.mem_filter.mpr
      refine ⟨hp, ?_⟩
      rw [Bool.and_eq_true, decide_eq_true_eq, decide_eq_true_eq]
      rcases happ with ⟨ha, hb⟩ | ⟨ha, hb⟩
      · simp only at ha hb
        rw [← ha, ← hb, getD_idxOf hq1n, getD_idxOf hq2n]
        exact ⟨hq1, hq2⟩
      · simp only at ha hb
        rw [← ha, ← hb, getD_idxOf hq2n, getD_idxOf hq1n]
        exact ⟨hq2, hq1⟩
    exact foldr_min_le (List.mem_map.mpr ⟨p, hmem, rfl⟩)

theorem edgeInit_entry (g : Hypergraph) (x y : ℕ) :
    edgeInit g x y =
      min (initDist g.nodes.length x y) (tripMin (relaxTriples g) x y) := by
  rw [edgeInit_eq_relaxList]
  exact relaxList_entry _ _ (initDist_sym _) x y

theorem edgeInit_sym (g : Hypergraph) : Sym (edgeInit g) := by
  rw [edgeInit_eq_relaxList]
  exact relaxList_sym _ _ (initDist_sym _)

theorem tripMin_nonneg (g : Hypergraph) (hw : WeightsNonneg g) (x y : ℕ) :
    0 ≤ tripMin (relaxTriples g) x y := by
  apply le_tripMin
  intro t ht _
  obtain ⟨p, hp, q, hq, rfl⟩ := mem_relaxTriples.mp ht
  have h0 : (0 : ℚ) ≤ lastWeight g p.1 := hw p hp
  exact_mod_cast h0

theorem initDist_nonneg (n : ℕ) : Nonneg (initDist n) := by
  intro x y
  unfold initDist
  by_cases h : x < n ∧ y < n
  · rw [if_pos h]
    by_cases hxy : x = y
    · rw [if_pos hxy]
    · rw [if_neg hxy]; exact le_top
  · rw [if_neg h]; exact le_top

theorem edgeInit_nonneg (g : Hypergraph) (hw : WeightsNonneg g) :
    Nonneg (edgeInit g) := by
  intro x y
  rw [edgeInit_entry]
  exact le_min (initDist_nonneg _ x y) (tripMin_nonneg g hw x y)

theorem edgeInit_outTop (g : Hypergraph) (hcl : Closed g) :
    OutTop g.nodes.length (edgeInit g) := by
  intro x y hxy
  rw [edgeInit_entry]
  have h1 : initDist g.nodes.length x y = ⊤ := by
    unfold initDist
    rw [if_neg]
    rcases hxy with h | h <;> omega
  have h2 : tripMin (relaxTriples g) x y = ⊤ := by
    refine le_antisymm le_top (le_tripMin ?_)
    intro t ht happ
    exfalso
    obtain ⟨p, hp, q, hq, rfl⟩ := mem_relaxTriples.mp ht
    obtain ⟨hq1, hq2⟩ := mem_pairCombinations_mem hq
    have hl1 : idxOf g q.1 < g.nodes.length := idxOf_lt (hcl p hp q.1 hq1)
    have hl2 : idxOf g q.2 < g.nodes.length := idxOf_lt (hcl p hp q.2 hq2)
    rcases happ with ⟨ha, hb⟩ | ⟨ha, hb⟩ <;> simp only at ha hb <;> omega
  rw [h1, h2]
  simp

theorem edgeInit_diag (g : Hypergraph) (hw : WeightsNonneg g) {i : ℕ}
    (hi : i < g.nodes.length) : edgeInit g i i = 0 := by
  rw [edgeInit_entry]
  have h0 : initDist g.nodes.length i i = 0 := by
    unfold initDist
    rw [if_pos ⟨hi, hi⟩, if_pos rfl]
  rw [h0]
  exact min_eq_left (tripMin_nonneg g hw i i)

theorem edgeInit_offdiag (g : Hypergraph) (hnd : g.nodes.Nodup)
    (hcl : Closed g) {i j : ℕ} (hi : i < g.nodes.length)
    (hj : j < g.nodes.length) (hij : i ≠ j) :
    edgeInit g i j = specEdgeWeight g i j := by
  rw [edgeInit_entry]
  have h1 : initDist g.nodes.length i j = ⊤ := by
    unfold initDist
    rw [if_pos ⟨hi, hj⟩, if_neg hij]
  rw [h1, tripMin_eq_specEdgeWeight g hnd hcl hi hj hij]
  exact min_eq_right le_top

end EdgeInitLemmas

section FWRounds

/-- The loop positions of round `k` strictly before position `(i, j)`
(rows below `i`, or row `i` at columns below `j`). -/
def Pfx (n i j x y : ℕ) : Prop := y < n ∧ (x < i ∨ (x = i ∧ y < j))

/-- An entry `(x, y)` already written during round `k` when the loop is at
position `(i, j)`: the pair or its mirror lies strictly before `(i, j)`. -/
def Vb (n i j x y : ℕ) : Prop := Pfx n i j x y ∨ Pfx n i j y x

instance (n i j x y : ℕ) : Decidable (Pfx n i j x y) := by
  unfold Pfx
  infer_instance

instance (n i j x y : ℕ) : Decidable (Vb n i j x y) := by
  unfold Vb
  infer_instance

/-- The invariant of the in-place round-`k` double loop at position
`(i, j)`: visited entries hold `min(d x y, d x k + d k y)` of the
round-start matrix `d`, unvisited entries still hold `d`. -/
def RoundInv (n k i j : ℕ) (d d' : ℕ → ℕ → QInf) : Prop :=
  ∀ x y, d' x y = if Vb n i j x y then roundF k d x y else d x y

theorem Vb_symm (n i j x y : ℕ) : Vb n i j x y ↔ Vb n i j y x :=
  or_comm

theorem Vb_succ (n i j x y : ℕ) (hj : j < n) :
    Vb n i (j+1) x y ↔ Vb n i j x y ∨ ((x = i ∧ y = j) ∨ (x = j ∧ y = i)) := by
  unfold Vb Pfx
  omega

theorem Vb_row (n i x y : ℕ) : Vb n i n x y ↔ Vb n (i+1) 0 x y := by
  unfold Vb Pfx
  omega

theorem Vb_zero (n x y : ℕ) : ¬Vb n 0 0 x y := by
  unfold Vb Pfx
  omega

theorem Vb_full (n x y : ℕ) : Vb n n 0 x y ↔ (x < n ∧ y < n) := by
  unfold Vb Pfx
  omega

theorem fwUpdate_inv (n k i j : ℕ) (d d' : ℕ → ℕ → QInf)
    (hd : Sym d) (hnn : Nonneg d) (_hi : i < n) (hj : j < n)
    (hinv : RoundInv n k i j d d') :
    RoundInv n k i (j+1) d (fwUpdate k d' i j) := by
  have hik : d' i k = d i k := by
    have h := hinv i k
    by_cases hv : Vb n i j i k
    · rw [h, if_pos hv]
      exact min_eq_left (le_add_of_nonneg_right (hnn k k))
    · rw [h, if_neg hv]
  have hkj : d' k j = d k j := by
    have h := hinv k j
    by_cases hv : Vb n i j k j
    · rw [h, if_pos hv]
      exact min_eq_left (le_add_of_nonneg_left (hnn k k))
    · rw [h, if_neg hv]
  have hcc : d' i k + d' k j = d i k + d k j := by rw [hik, hkj]
  have htarget_ji : roundF k d j i = min (d i j) (d i k + d k j) := by
    unfold roundF
    rw [hd j i, hd j k, hd k i, add_comm (d k j) (d i k)]
  unfold fwUpdate
  by_cases hgt : d' i j > d' i k + d' k j
  · rw [if_pos hgt]
    have hvij : ¬Vb n i j i j := by
      intro hv
      have h := hinv i j
      rw [h, if_pos hv, hcc] at hgt
      exact absurd hgt (not_lt.mpr (min_le_right _ _))
    have hdij : d' i j = d i j := by rw [hinv i j, if_neg hvij]
    have hgt' : d i j > d i k + d k j := by
      rw [← hdij, ← hcc]
      exact hgt
    intro x y
    unfold updateSym
    by_cases happ : (x = i ∧ y = j) ∨ (x = j ∧ y = i)
    · rw [if_pos happ]
      have hvb : Vb n i (j+1) x y := by
        rw [Vb_succ n i j x y hj]
        exact Or.inr happ
      rw [if_pos hvb, hcc]
      rcases happ with ⟨hx, hy⟩ | ⟨hx, hy⟩
      · rw [hx, hy]
        unfold roundF
        exact (min_eq_right (le_of_lt hgt')).symm
      · rw [hx, hy, htarget_ji]
        exact (min_eq_right (le_of_lt hgt')).symm
    · rw [if_neg happ]
      have hvb : Vb n i (j+1) x y ↔ Vb n i j x y := by
        rw [Vb_succ n i j x y hj]
        constructor
        · rintro (h | h)
          · exact h
          · exact absurd h happ
        · exact Or.inl
      rw [hinv x y]
      by_cases hv : Vb n i j x y
      · rw [if_pos hv, if_pos (hvb.mpr hv)]
      · rw [if_neg hv, if_neg (fun hc => hv (hvb.mp hc))]
  · rw [if_neg hgt]
    push_neg at hgt
    intro x y
    rw [hinv x y]
    by_cases happ : (x = i ∧ y = j) ∨ (x = j ∧ y = i)
    · have hvb : Vb n i (j+1) x y := by
        rw [Vb_succ n i j x y hj]
        exact Or.inr happ
      rw [if_pos hvb]
      by_cases hv : Vb n i j x y
      · rw [if_pos hv]
      · rw [if_neg hv]
        have hvij : ¬Vb n i j i j := by
          rcases happ with ⟨hx, hy⟩ | ⟨hx, hy⟩
          · simpa [hx, hy] using hv
          · exact fun hc =>
              (by simpa [hx, hy] using hv : ¬Vb n i j j i)
                ((Vb_symm n i j i j).mp hc)
        have hdij : d' i j = d i j := by rw [hinv i j, if_neg hvij]
        have hle : d i j ≤ d i k + d k j := by
          rw [← hdij, ← hcc]
          exact hgt
        rcases happ with ⟨hx, hy⟩ | ⟨hx, hy⟩
        · rw [hx, hy]
          unfold roundF
          exact (min_eq_left hle).symm
        · rw [hx, hy, htarget_ji, hd j i]
          exact (min_eq_left hle).symm
    · have hvb : Vb n i (j+1) x y ↔ Vb n i j x y := by
        rw [Vb_succ n i j x y hj]
        constructor
        · rintro (h | h)
          · exact h
          · exact absurd h happ
        · exact Or.inl
      by_cases hv : Vb n i j x y
      · rw [if_pos hv, if_pos (hvb.mpr hv)]
      · rw [if_neg hv, if_neg (fun hc => hv (hvb.mp hc))]

theorem fwInner_inv (n k i : ℕ) (d : ℕ → ℕ → QInf) (hd : Sym d)
    (hnn : Nonneg d) (hi : i < n) :
    ∀ m, m ≤ n → ∀ dstart, RoundInv n k i 0 d dstart →
      RoundInv n k i m d
        ((List.range m).foldl (fun d' j => fwUpdate k d' i j) dstart) := by
  intro m
  induction m with
  | zero =>
    intro _ dstart hstart
    simpa using hstart
  | succ m ih =>
    intro hm dstart hstart
    rw [List.range_succ, List.foldl_append, List.foldl_cons, List.foldl_nil]
    exact fwUpdate_inv n k i m d _ hd hnn hi (by omega)
      (ih (by omega) dstart hstart)

theorem fwRound_inv (n k : ℕ) (d : ℕ → ℕ → QInf) (hd : Sym d)
    (hnn : Nonneg d) : RoundInv n k n 0 d (fwRound n k d) := by
  unfold fwRound
  suffices h : ∀ m, m ≤ n → RoundInv n k m 0 d
      ((List.range m).foldl (fun d' i => fwInner n k i d') d) from h n le_rfl
  intro m
  induction m with
  | zero =>
    intro _
    intro x y
    simp only [List.range_zero, List.foldl_nil]
    rw [if_neg (Vb_zero n x y)]
  | succ m ih =>
    intro hm
    rw [List.range_succ, List.foldl_append, List.foldl_cons, List.foldl_nil]
    have hrow : RoundInv n k m n d
        (fwInner n k m ((List.range m).foldl (fun d' i => fwInner n k i d') d)) :=
      fwInner_inv n k m d hd hnn (by omega) n le_rfl _ (ih (by omega))
    intro x y
    have h := hrow x y
    rw [h]
    by_cases hv : Vb n m n x y
    · rw [if_pos hv, if_pos ((Vb_row n m x y).mp hv)]
    · rw [if_neg hv, if_neg (fun hc => hv ((Vb_row n m x y).mpr hc))]

theorem fwRound_eq_roundF (n k : ℕ) (d : ℕ → ℕ → QInf) (hd : Sym d)
    (hnn : Nonneg d) (hot : OutTop n d) : fwRound n k d = roundF k d := by
  funext x y
  have h := fwRound_inv n k d hd hnn x y
  by_cases hxy : x < n ∧ y < n
  · rw [h, if_pos ((Vb_full n x y).mpr hxy)]
  · rw [h, if_neg (fun hc => hxy ((Vb_full n x y).mp hc))]
    have hx : d x y = ⊤ := hot x y (by omega)
    unfold roundF
    rcases (by omega : n ≤ x ∨ n ≤ y) with hge | hge
    · simp [hx, hot x k (Or.inl hge)]
    · simp [hx, hot k y (Or.inr hge)]

/-- The bundle of matrix invariants preserved round to round. -/
def GoodM (n : ℕ) (d : ℕ → ℕ → QInf) : Prop :=
  Sym d ∧ Nonneg d ∧ OutTop n d

theorem goodM_roundF (n k : ℕ) (d : ℕ → ℕ → QInf) (hg : GoodM n d) :
    GoodM n (roundF k d) := by
  obtain ⟨hd, hnn, hot⟩ := hg
  refine ⟨?_, ?_, ?_⟩
  · intro x y
    show min (d x y) (d x k + d k y) = min (d y x) (d y k + d k x)
    rw [hd y x, hd y k, hd k x, add_comm (d k y) (d x k)]
  · intro x y
    exact le_min (hnn x y) (add_nonneg (hnn x k) (hnn k y))
  · intro x y hxy
    unfold roundF
    rcases hxy with h | h
    · simp [hot x y (Or.inl h), hot x k (Or.inl h)]
    · simp [hot x y (Or.inr h), hot k y (Or.inr h)]

theorem goodM_fwRecN (n : ℕ) (d : ℕ → ℕ → QInf) (hg : GoodM n d) (m : ℕ) :
    GoodM n (fwRecN d m) := by
  induction m with
  | zero => exact hg
  | succ m ih => exact goodM_roundF n m _ ih

theorem fwLoop_eq_fwRecN (n : ℕ) (d : ℕ → ℕ → QInf) (hg : GoodM n d) :
    ∀ m, m ≤ n →
      (List.range m).foldl (fun d' k => fwRound n k d') d = fwRecN d m := by
  intro m
  induction m with
  | zero => intro _; simp [List.range_zero, fwRecN]
  | succ m ih =>
    intro hm
    rw [List.range_succ, List.foldl_append, List.foldl_cons, List.foldl_nil,
      ih (by omega)]
    have hgood := goodM_fwRecN n d hg m
    show fwRound n m (fwRecN d m) = fwRecN d (m+1)
    rw [fwRound_eq_roundF n m _ hgood.1 hgood.2.1 hgood.2.2]
    rfl

theorem fwLoop_eq (n : ℕ) (d : ℕ → ℕ → QInf) (hg : GoodM n d) :
    fwLoop n d = fwRecN d n :=
  fwLoop_eq_fwRecN n d hg n le_rfl

theorem fwRecN_diag (n : ℕ) (d : ℕ → ℕ → QInf) (hg : GoodM n d)
    (h0 : ∀ i, i < n → d i i = 0) (m : ℕ) :
    ∀ i, i < n → fwRecN d m i i = 0 := by
  induction m with
  | zero => exact h0
  | succ m ih =>
    intro i hi
    have hgood := goodM_fwRecN n d hg m
    show min (fwRecN d m i i) (fwRecN d m i m + fwRecN d m m i) = 0
    rw [ih i hi]
    exact min_eq_left (add_nonneg (hgood.2.1 i m) (hgood.2.1 m i))

end FWRounds

section WalkLemmas

variable (g : Hypergraph)

/-- The edge relation of the walk chains. -/
def EdgeRel (a b : ℕ) : Prop := specEdgeWeight g a b ≠ ⊤

/-- The vertices strictly between a walk's endpoints. -/
def intermediates (p : List ℕ) : List ℕ := (p.drop 1).dropLast

theorem specEdgeWeight_lt {a b : ℕ} (h : specEdgeWeight g a b ≠ ⊤) :
    a < g.nodes.length ∧ b < g.nodes.length ∧ a ≠ b := by
  by_contra hc
  apply h
  unfold specEdgeWeight
  rw [if_neg hc]

theorem walkCost_append (y : ℕ) : ∀ (xs ys : List ℕ),
    walkCost g (xs ++ y :: ys) = walkCost g (xs ++ [y]) + walkCost g (y :: ys)
  | [], ys => by
    show walkCost g (y :: ys) = walkCost g [y] + walkCost g (y :: ys)
    show walkCost g (y :: ys) = 0 + walkCost g (y :: ys)
    rw [zero_add]
  | [a], ys => by
    show specEdgeWeight g a y + walkCost g (y :: ys) =
      (specEdgeWeight g a y + 0) + walkCost g (y :: ys)
    rw [add_zero]
  | a :: b :: xs, ys => by
    show specEdgeWeight g a b + walkCost g ((b :: xs) ++ y :: ys) =
      (specEdgeWeight g a b + walkCost g ((b :: xs) ++ [y])) +
        walkCost g (y :: ys)
    rw [walkCost_append y (b :: xs) ys, add_assoc]

theorem chain'_split {R : ℕ → ℕ → Prop} {xs ys : List ℕ} {y : ℕ}
    (h : List.Chain' R (xs ++ y :: ys)) :
    List.Chain' R (xs ++ [y]) ∧ List.Chain' R (y :: ys) := by
  have h2 : (xs ++ [y]) ++ ys = xs ++ y :: ys := by simp
  rw [← h2, List.chain'_append] at h
  obtain ⟨h1, hy2, hlink⟩ := h
  refine ⟨h1, ?_⟩
  rw [List.chain'_cons']
  refine ⟨?_, hy2⟩
  intro z hz
  exact hlink y (by rw [List.getLast?_concat]; rfl) z hz

theorem walkCost_ne_top : ∀ {p : List ℕ},
    List.Chain' (EdgeRel g) p → walkCost g p ≠ ⊤
  | [], _ => by
    show (0 : QInf) ≠ ⊤
    simp
  | [_], _ => by
    show (0 : QInf) ≠ ⊤
    simp
  | a :: b :: t, h => by
    rw [List.chain'_cons] at h
    show specEdgeWeight g a b + walkCost g (b :: t) ≠ ⊤
    rw [WithTop.add_ne_top]
    exact ⟨h.1, walkCost_ne_top h.2⟩

theorem exists_first_split {a : ℕ} : ∀ {l : List ℕ}, a ∈ l →
    ∃ q r, l = q ++ a :: r ∧ a ∉ q := by
  intro l
  induction l with
  | nil => intro h; cases h
  | cons x xs ih =>
    intro h
    by_cases hx : a = x
    · exact ⟨[], xs, by rw [hx]; rfl, by simp⟩
    · have hmem : a ∈ xs := by
        rcases List.mem_cons.mp h with h' | h'
        · exact absurd h' hx
        · exact h'
      obtain ⟨q, r, heq, hnq⟩ := ih hmem
      refine ⟨x :: q, r, by rw [heq]; rfl, ?_⟩
      intro hc
      rcases List.mem_cons.mp hc with h' | h'
      · exact hx h'
      · exact hnq h'

theorem intermediates_split {i m : ℕ} {q' r' : List ℕ} (hr : r' ≠ []) :
    intermediates (i :: q' ++ m :: r') = q' ++ m :: r'.dropLast := by
  unfold intermediates
  show ((q' ++ m :: r').dropLast : List ℕ) = q' ++ m :: r'.dropLast
  rw [List.dropLast_append_cons]
  congr 1
  cases r' with
  | nil => exact absurd rfl hr
  | cons c t => rw [List.dropLast_cons₂]

theorem mem_intermediates_dropLast {p : List ℕ} {v : ℕ}
    (h : v ∈ intermediates p) : v ∈ p.dropLast := by
  cases p with
  | nil => cases h
  | cons a rest =>
    unfold intermediates at h
    simp only [List.drop_one, List.tail_cons] at h
    cases rest with
    | nil => cases h
    | cons b t =>
      rw [List.dropLast_cons₂]
      exact List.mem_cons_of_mem a h

theorem chain_dropLast_lt : ∀ {p : List ℕ},
    List.Chain' (EdgeRel g) p → ∀ v ∈ p.dropLast, v < g.nodes.length
  | [], _ => by intro v hv; cases hv
  | [_], _ => by intro v hv; cases hv
  | a :: b :: t, h => by
    rw [List.chain'_cons] at h
    intro v hv
    rw [List.dropLast_cons₂] at hv
    rcases List.mem_cons.mp hv with rfl | hv
    · exact (specEdgeWeight_lt g h.1).1
    · exact chain_dropLast_lt h.2 v hv

theorem walk_glue {i m j : ℕ} {p₁ p₂ : List ℕ}
    (h1 : IsWalk g i m p₁) (h2 : IsWalk g m j p₂) :
    IsWalk g i j (p₁ ++ p₂.tail) ∧
      walkCost g (p₁ ++ p₂.tail) = walkCost g p₁ + walkCost g p₂ := by
  obtain ⟨hh1, hl1, hc1⟩ := h1
  obtain ⟨hh2, hl2, hc2⟩ := h2
  cases p₂ with
  | nil => cases hh2
  | cons m' t =>
    have hm2 : m = m' := by
      rw [List.head?_cons] at hh2
      exact (Option.some.inj hh2).symm
    subst hm2
    simp only [List.tail_cons]
    have hp1split : p₁.dropLast ++ [m] = p₁ :=
      List.dropLast_append_getLast? m (Option.mem_def.mpr hl1)
    have hglue : p₁ ++ t = p₁.dropLast ++ m :: t := by
      conv_lhs => rw [← hp1split]
      rw [List.append_assoc]
      rfl
    rw [List.chain'_cons'] at hc2
    constructor
    · refine ⟨?_, ?_, ?_⟩
      · cases p₁ with
        | nil => cases hh1
        | cons a s => exact hh1
      · cases t with
        | nil =>
          have hmj : m = j := Option.some.inj hl2
          rw [List.append_nil, hl1, hmj]
        | cons c t' =>
          have hl2' : (c :: t').getLast? = some j := by
            rw [List.getLast?_cons_cons] at hl2
            exact hl2
          rw [List.getLast?_append, hl2']
          rfl
      · rw [List.chain'_append]
        refine ⟨hc1, hc2.2, ?_⟩
        intro x hx y hy
        have hxm : x = m := by
          rw [Option.mem_def, hl1] at hx
          exact (Option.some.inj hx).symm
        subst hxm
        exact hc2.1 y hy
    · show walkCost g (p₁ ++ t) = walkCost g p₁ + walkCost g (m :: t)
      rw [hglue, walkCost_append g m p₁.dropLast t, hp1split]

end WalkLemmas

section FWCorrectness

theorem goodM_edgeInit (g : Hypergraph) (hcl : Closed g)
    (hw : WeightsNonneg g) : GoodM g.nodes.length (edgeInit g) :=
  ⟨edgeInit_sym g, edgeInit_nonneg g hw, edgeInit_outTop g hcl⟩

theorem fwRecN_le_walkCost (g : Hypergraph) (hnd : g.nodes.Nodup)
    (hcl : Closed g) (hw : WeightsNonneg g) :
    ∀ m, m ≤ g.nodes.length → ∀ p i j, IsWalk g i j p →
      (∀ v ∈ intermediates p, v < m) →
      i < g.nodes.length → j < g.nodes.length →
      fwRecN (edgeInit g) m i j ≤ walkCost g p := by
  intro m
  induction m with
  | zero =>
    intro _ p i j hwalk hints hi hj
    obtain ⟨hh, hl, hc⟩ := hwalk
    cases p with
    | nil => cases hh
    | cons a rest =>
      have ha : a = i := Option.some.inj hh
      subst ha
      cases rest with
      | nil =>
        have hj' : a = j := by simpa using hl
        subst hj'
        show edgeInit g a a ≤ walkCost g [a]
        rw [edgeInit_diag g hw hi]
        show (0 : QInf) ≤ 0
        exact le_rfl
      | cons b t =>
        cases t with
        | nil =>
          have hb : b = j := by simpa using hl
          subst hb
          rw [List.chain'_cons] at hc
          have hprop := specEdgeWeight_lt g hc.1
          show edgeInit g a b ≤ walkCost g [a, b]
          rw [edgeInit_offdiag g hnd hcl hi hj hprop.2.2]
          show specEdgeWeight g a b ≤ specEdgeWeight g a b + 0
          rw [add_zero]
        | cons c t' =>
          exfalso
          have hbmem : b ∈ intermediates (a :: b :: c :: t') := by
            unfold intermediates
            rw [List.drop_one, List.tail_cons, List.dropLast_cons₂]
            exact List.mem_cons_self _ _
          exact Nat.not_lt_zero b (hints b hbmem)
  | succ m ih =>
    intro hm
    suffices haux : ∀ L, ∀ p i j, p.length ≤ L → IsWalk g i j p →
        (∀ v ∈ intermediates p, v < m + 1) →
        i < g.nodes.length → j < g.nodes.length →
        fwRecN (edgeInit g) (m+1) i j ≤ walkCost g p by
      intro p i j hwalk hints hi hj
      exact haux p.length p i j le_rfl hwalk hints hi hj
    intro L
    induction L with
    | zero =>
      intro p i j hlen hwalk _ _ _
      cases p with
      | nil => cases hwalk.1
      | cons a rest => simp at hlen
    | succ L ihL =>
      intro p i j hlen hwalk hints hi hj
      by_cases hmem : m ∈ intermediates p
      · obtain ⟨hh, hl, hc⟩ := hwalk
        cases p with
        | nil => cases hh
        | cons a rest =>
          have ha : a = i := Option.some.inj hh
          subst ha
          have hmrest : m ∈ rest := by
            have h1 : intermediates (a :: rest) = rest.dropLast := by
              unfold intermediates
              rw [List.drop_one, List.tail_cons]
            rw [h1] at hmem
            exact (List.dropLast_sublist rest).subset hmem
          obtain ⟨q', r', hsplit, hnq⟩ := exists_first_split hmrest
          have hr' : r' ≠ [] := by
            intro h0
            subst h0
            apply hnq
            have h1 : intermediates (a :: rest) = q' := by
              unfold intermediates
              rw [List.drop_one, List.tail_cons, hsplit, List.dropLast_concat]
            rw [h1] at hmem
            exact hmem
          subst hsplit
          have hint_eq : intermediates (a :: (q' ++ m :: r')) =
              q' ++ m :: r'.dropLast := intermediates_split hr'
          have hsplit2 := @chain'_split (EdgeRel g) (a :: q') r' m (by exact hc)
          have hwalk1 : IsWalk g a m ((a :: q') ++ [m]) := by
            refine ⟨rfl, List.getLast?_concat _, hsplit2.1⟩
          have hints1 : ∀ v ∈ intermediates ((a :: q') ++ [m]), v < m := by
            intro v hv
            have hveq : intermediates ((a :: q') ++ [m]) = q' := by
              unfold intermediates
              show (q' ++ [m]).dropLast = q'
              rw [List.dropLast_concat]
            rw [hveq] at hv
            have h1 : v < m + 1 := by
              apply hints
              rw [hint_eq]
              exact List.mem_append_left _ hv
            have h2 : v ≠ m := fun hvm => hnq (hvm ▸ hv)
            omega
          have hmn : m < g.nodes.length := by omega
          have h1 := ih (by omega) ((a :: q') ++ [m]) a m hwalk1 hints1 hi hmn
          have hl2 : (m :: r').getLast? = some j := by
            have hp : (a :: (q' ++ m :: r')) = (a :: q') ++ m :: r' := rfl
            rw [hp, List.getLast?_append] at hl
            cases hz : (m :: r').getLast? with
            | none =>
              rw [List.getLast?_eq_none_iff] at hz
              cases hz
            | some z =>
              rw [hz, Option.or_some] at hl
              exact hl
          have hwalk2 : IsWalk g m j (m :: r') :=
            ⟨rfl, hl2, hsplit2.2⟩
          have hints2 : ∀ v ∈ intermediates (m :: r'), v < m + 1 := by
            intro v hv
            apply hints
            rw [hint_eq]
            have hv' : v ∈ r'.dropLast := by
              have h1 : intermediates (m :: r') = r'.dropLast := by
                unfold intermediates
                rw [List.drop_one, List.tail_cons]
              rwa [h1] at hv
            exact List.mem_append_right _ (List.mem_cons_of_mem _ hv')
          have hlen2 : (m :: r').length ≤ L := by
            have := hlen
            simp only [List.length_cons, List.length_append] at this ⊢
            omega
          have h2 := ihL (m :: r') m j hlen2 hwalk2 hints2 hmn hj
          have hgood := goodM_edgeInit g hcl hw
          have hdiag : fwRecN (edgeInit g) m m m = 0 :=
            fwRecN_diag g.nodes.length (edgeInit g) hgood
              (fun i hi => edgeInit_diag g hw hi) m m hmn
          have hFeq : fwRecN (edgeInit g) (m+1) m j =
              fwRecN (edgeInit g) m m j := by
            show min (fwRecN (edgeInit g) m m j)
              (fwRecN (edgeInit g) m m m + fwRecN (edgeInit g) m m j) =
              fwRecN (edgeInit g) m m j
            rw [hdiag, zero_add, min_self]
          have hcost : walkCost g (a :: (q' ++ m :: r')) =
              walkCost g ((a :: q') ++ [m]) + walkCost g (m :: r') := by
            have hshape : (a :: (q' ++ m :: r')) = (a :: q') ++ m :: r' := rfl
            rw [hshape, walkCost_append g m (a :: q') r']
          calc fwRecN (edgeInit g) (m+1) a j
              ≤ fwRecN (edgeInit g) m a m + fwRecN (edgeInit g) m m j := by
                show min _ _ ≤ _
                exact min_le_right _ _
            _ ≤ walkCost g ((a :: q') ++ [m]) + walkCost g (m :: r') := by
                apply add_le_add h1
                rw [← hFeq]
                exact h2
            _ = walkCost g (a :: (q' ++ m :: r')) := hcost.symm
      · have hlt : ∀ v ∈ intermediates p, v < m := by
          intro v hv
          have h1 := hints v hv
          have h2 : v ≠ m := fun hceq => hmem (hceq ▸ hv)
          omega
        have h := ih (by omega) p i j hwalk hlt hi hj
        calc fwRecN (edgeInit g) (m+1) i j ≤ fwRecN (edgeInit g) m i j := by
              show min _ _ ≤ _
              exact min_le_left _ _
          _ ≤ walkCost g p := h

theorem fwRecN_attained (g : Hypergraph) (hnd : g.nodes.Nodup)
    (hcl : Closed g) (hw : WeightsNonneg g) :
    ∀ m, m ≤ g.nodes.length → ∀ i j, i < g.nodes.length →
      j < g.nodes.length →
      fwRecN (edgeInit g) m i j = ⊤ ∨
      ∃ p, IsWalk g i j p ∧ walkCost g p = fwRecN (edgeInit g) m i j := by
  intro m
  induction m with
  | zero =>
    intro _ i j hi hj
    by_cases hij : i = j
    · subst hij
      right
      refine ⟨[i], ⟨rfl, rfl, List.chain'_singleton i⟩, ?_⟩
      show (0 : QInf) = edgeInit g i i
      rw [edgeInit_diag g hw hi]
    · by_cases htop : specEdgeWeight g i j = ⊤
      · left
        show edgeInit g i j = ⊤
        rw [edgeInit_offdiag g hnd hcl hi hj hij, htop]
      · right
        refine ⟨[i, j], ⟨rfl, rfl, ?_⟩, ?_⟩
        · rw [List.chain'_cons]
          exact ⟨htop, List.chain'_singleton j⟩
        · show specEdgeWeight g i j + 0 = edgeInit g i j
          rw [add_zero, edgeInit_offdiag g hnd hcl hi hj hij]
  | succ m ih =>
    intro hm i j hi hj
    have hmn : m < g.nodes.length := by omega
    rcases le_total (fwRecN (edgeInit g) m i j)
        (fwRecN (edgeInit g) m i m + fwRecN (edgeInit g) m m j) with hle | hle
    · have heq : fwRecN (edgeInit g) (m+1) i j = fwRecN (edgeInit g) m i j := by
        show min _ _ = _
        exact min_eq_left hle
      rcases ih (by omega) i j hi hj with htop | ⟨p, hwalk, hcost⟩
      · left
        rw [heq, htop]
      · right
        exact ⟨p, hwalk, by rw [heq, hcost]⟩
    · have heq : fwRecN (edgeInit g) (m+1) i j =
          fwRecN (edgeInit g) m i m + fwRecN (edgeInit g) m m j := by
        show min _ _ = _
        exact min_eq_right hle
      by_cases htop : fwRecN (edgeInit g) m i m + fwRecN (edgeInit g) m m j = ⊤
      · left
        rw [heq, htop]
      · right
        obtain ⟨h1top, h2top⟩ := WithTop.add_ne_top.mp htop
        rcases ih (by omega) i m hi hmn with h | ⟨p₁, hw₁, hc₁⟩
        · exact absurd h h1top
        · rcases ih (by omega) m j hmn hj with h | ⟨p₂, hw₂, hc₂⟩
          · exact absurd h h2top
          · obtain ⟨hwalk, hcost⟩ := walk_glue g hw₁ hw₂
            refine ⟨p₁ ++ p₂.tail, hwalk, ?_⟩
            rw [hcost, hc₁, hc₂]
            exact heq.symm

theorem fwRecN_le_walkCost_all (g : Hypergraph) (hnd : g.nodes.Nodup)
    (hcl : Closed g) (hw : WeightsNonneg g) {p : List ℕ} {i j : ℕ}
    (hwalk : IsWalk g i j p) (hi : i < g.nodes.length)
    (hj : j < g.nodes.length) :
    fwRecN (edgeInit g) g.nodes.length i j ≤ walkCost g p := by
  apply fwRecN_le_walkCost g hnd hcl hw g.nodes.length le_rfl p i j hwalk ?_
    hi hj
  intro v hv
  exact chain_dropLast_lt g hwalk.2.2 v (mem_intermediates_dropLast hv)

theorem floyd_warshall_length (g : Hypergraph) :
    (floyd_warshall g).length = g.nodes.length := by
  unfold floyd_warshall
  simp

theorem floyd_warshall_row_length (g : Hypergraph) :
    ∀ row ∈ floyd_warshall g, row.length = g.nodes.length := by
  unfold floyd_warshall
  intro row hrow
  simp only [List.mem_map, List.mem_range] at hrow
  obtain ⟨i, _, rfl⟩ := hrow
  simp

theorem matEntry_floyd (g : Hypergraph) {i j : ℕ} (hi : i < g.nodes.length)
    (hj : j < g.nodes.length) :
    matEntry (floyd_warshall g) i j =
      (fwLoop g.nodes.length (edgeInit g) i j).untop' 0 := by
  unfold floyd_warshall matEntry
  have hibound : i < ((List.range g.nodes.length).map
      (fun i => (List.range g.nodes.length).map
        (fun j => (fwLoop g.nodes.length (edgeInit g) i j).untop' 0))).length := by
    simpa using hi
  rw [List.getD_eq_getElem _ _ hibound, List.getElem_map, List.getElem_range]
  have hjbound : j < ((List.range g.nodes.length).map
      (fun j => (fwLoop g.nodes.length (edgeInit g) i j).untop' 0)).length := by
    simpa using hj
  rw [List.getD_eq_getElem _ _ hjbound, List.getElem_map, List.getElem_range]

/-- C7: on any store satisfying the system's invariants (duplicate-free
node list, member nodes present, non-negative latest weights), the matrix
returned by `floyd_warshall` is an n×n symmetric matrix with zero
diagonal; each off-diagonal entry of a reachable pair is the least
cumulative weight over paths of the hyperedge-induced graph (member
pairs weighted by the hyperedge's latest weight, minimum over hyperedges
connecting the same pair), and entry 0 stands for pairs with no path. -/
theorem floyd_warshall_shortest_paths (g : Hypergraph)
    (hnd : g.nodes.Nodup) (hcl : Closed g) (hw : WeightsNonneg g) :
    ((floyd_warshall g).length = g.nodes.length ∧
      (∀ row ∈ floyd_warshall g, row.length = g.nodes.length) ∧
      (∀ i, i < g.nodes.length → ∀ j, j < g.nodes.length →
        matEntry (floyd_warshall g) i j = matEntry (floyd_warshall g) j i) ∧
      (∀ i, i < g.nodes.length → matEntry (floyd_warshall g) i i = 0)) ∧
    (∀ i, i < g.nodes.length → ∀ j, j < g.nodes.length → i ≠ j →
      ((∃ p, IsWalk g i j p) →
        IsLeast {c : ℚ | ∃ p, IsWalk g i j p ∧ walkCost g p = (c : QInf)}
          (matEntry (floyd_warshall g) i j)) ∧
      ((¬∃ p, IsWalk g i j p) → matEntry (floyd_warshall g) i j = 0)) := by
  have hgood := goodM_edgeInit g hcl hw
  have hloop : fwLoop g.nodes.length (edgeInit g) =
      fwRecN (edgeInit g) g.nodes.length := fwLoop_eq _ _ hgood
  have hME : ∀ {i j}, i < g.nodes.length → j < g.nodes.length →
      matEntry (floyd_warshall g) i j =
        (fwRecN (edgeInit g) g.nodes.length i j).untop' 0 := by
    intro i j hi hj
    rw [matEntry_floyd g hi hj, hloop]
  have hgoodF := goodM_fwRecN g.nodes.length (edgeInit g) hgood g.nodes.length
  constructor
  · refine ⟨floyd_warshall_length g, floyd_warshall_row_length g, ?_, ?_⟩
    · intro i hi j hj
      rw [hME hi hj, hME hj hi, hgoodF.1 i j]
    · intro i hi
      rw [hME hi hi,
        fwRecN_diag _ _ hgood (fun a ha => edgeInit_diag g hw ha) _ i hi]
      rfl
  · intro i hi j hj hij
    constructor
    · rintro ⟨p, hp⟩
      have hle := fwRecN_le_walkCost_all g hnd hcl hw hp hi hj
      have hcostne : walkCost g p ≠ ⊤ := walkCost_ne_top g hp.2.2
      have hFne : fwRecN (edgeInit g) g.nodes.length i j ≠ ⊤ := by
        intro hctop
        rw [hctop] at hle
        exact hcostne (top_le_iff.mp hle)
      obtain ⟨q, hq⟩ := WithTop.ne_top_iff_exists.mp hFne
      have hMEq : matEntry (floyd_warshall g) i j = q := by
        rw [hME hi hj, ← hq, WithTop.untop'_coe]
      constructor
      · rcases fwRecN_attained g hnd hcl hw g.nodes.length le_rfl i j hi hj
          with h | ⟨p₀, hw₀, hc₀⟩
        · exact absurd h hFne
        · exact ⟨p₀, hw₀, by rw [hMEq, hc₀, ← hq]⟩
      · intro c hc
        obtain ⟨p', hp', hcost'⟩ := hc
        have hle' := fwRecN_le_walkCost_all g hnd hcl hw hp' hi hj
        rw [← hq, hcost'] at hle'
        rw [hMEq]
        exact WithTop.coe_le_coe.mp hle'
    · intro hnp
      have hFtop : fwRecN (edgeInit g) g.nodes.length i j = ⊤ := by
        rcases fwRecN_attained g hnd hcl hw g.nodes.length le_rfl i j hi hj
          with h | ⟨p₀, hw₀, _⟩
        · exact h
        · exact absurd ⟨p₀, hw₀⟩ hnp
      rw [hME hi hj, hFtop]
      rfl

/-- Witness for C7 at the concrete store `gEx`. -/
theorem floyd_warshall_shortest_paths_witness :
    (((floyd_warshall gEx).length = gEx.nodes.length ∧
      (∀ row ∈ floyd_warshall gEx, row.length = gEx.nodes.length) ∧
      (∀ i, i < gEx.nodes.length → ∀ j, j < gEx.nodes.length →
        matEntry (floyd_warshall gEx) i j = matEntry (floyd_warshall gEx) j i) ∧
      (∀ i, i < gEx.nodes.length → matEntry (floyd_warshall gEx) i i = 0)) ∧
    (∀ i, i < gEx.nodes.length → ∀ j, j < gEx.nodes.length → i ≠ j →
      ((∃ p, IsWalk gEx i j p) →
        IsLeast {c : ℚ | ∃ p, IsWalk gEx i j p ∧ walkCost gEx p = (c : QInf)}
          (matEntry (floyd_warshall gEx) i j)) ∧
      ((¬∃ p, IsWalk gEx i j p) → matEntry (floyd_warshall gEx) i j = 0))) :=
  floyd_warshall_shortest_paths gEx (by decide) (by unfold Closed; decide)
    (by
      intro p hp
      simp only [gEx, List.mem_cons, List.not_mem_nil, or_false] at hp
      rcases hp with rfl | rfl | rfl <;>
        norm_num [lastWeight, lookupKey, gEx])

end FWCorrectness

end HyperRF
